import Mathlib

set_option autoImplicit false
set_option linter.unusedSectionVars false

/-!
Verification development for the 3-d convex hull example of this repository:
the concurrent hash-based map `convex_hash_map` (src/examples/convex_hash_map.h),
the hull builder `Convex_Hull_3d` (src/examples/convex_hull_3d.h) and the
command-line driver (src/examples/convex_hull_3d.cpp).

The embedding is a sequential interleaving semantics of the source: the
atomic compare-and-swap operations on the per-slot flags become plain
read-modify-write steps on an explicit table state, every `while` loop is
given explicit fuel, and a loop that would run forever is the `none` result
of its fuelled function.  Parallel constructs (`parallel_for`, `par_do3`)
are run left to right.  The template parameters `Hash` and `Equal` of
`convex_hash_map` are modelled as an explicit hash function parameter and
decidable equality.  Point coordinates (C++ `float`/`double`) are modelled
as exact rationals; no claim settled here depends on rounding behaviour.
-/

namespace CHM

/-- One slot of the open-addressing table: the `struct entry` of
`convex_hash_map`, with its three flags `taken`, `check`, `removed` and the
`key`/`value` payload.  The C++ constructor initializes only the flags; the
payload of an untaken slot is modelled by the `Inhabited` default and is
never observed by the operations. -/
structure MEntry (K V : Type) where
  taken : Bool
  check : Bool
  removed : Bool
  key : K
  value : V
  deriving DecidableEq, Repr

instance {K V : Type} [Inhabited K] [Inhabited V] : Inhabited (MEntry K V) :=
  ⟨⟨false, false, false, default, default⟩⟩

/-- The table state of a `convex_hash_map`: the slot count `m` and the slot
sequence `R`. -/
structure MapState (K V : Type) where
  m : Nat
  slots : List (MEntry K V)
  deriving DecidableEq, Repr

variable {K V : Type} [DecidableEq K] [DecidableEq V] [Inhabited K] [Inhabited V]

/-- The constructor `convex_hash_map(long size)`: `m = 100 + 1.5 * size`
slots (the double multiplication truncates to an integer), all flags false. -/
def mkMap (size : Nat) : MapState K V :=
  ⟨100 + (3 * size) / 2, List.replicate (100 + (3 * size) / 2) default⟩

/-- Read slot `i` (the C++ `R[i]`). -/
def slotAt (s : MapState K V) (i : Nat) : MEntry K V :=
  s.slots.getD i default

/-- `next_index`: linear probing with wraparound. -/
def next_index (m i : Nat) : Nat :=
  if i + 1 = m then 0 else i + 1

/-- `start_index`: the home slot `hash(k) % m` of a key. -/
def start_index (hash : K → Nat) (s : MapState K V) (k : K) : Nat :=
  hash k % s.m

/-- Replace slot `i`. -/
def setSlot (s : MapState K V) (i : Nat) (e : MEntry K V) : MapState K V :=
  { s with slots := s.slots.set i e }

/-- Claiming a slot: set its `taken` flag and write the key/value pair
(the successful CAS in the claiming loop of `insert_and_set`, followed by
the two payload writes `R[i].key = k; R[i].value = v`). -/
def writeSlot (s : MapState K V) (i : Nat) (k : K) (v : V) : MapState K V :=
  setSlot s i { slotAt s i with taken := true, key := k, value := v }

/-- The successful CAS on the `check` flag during the verification scan. -/
def setCheck (s : MapState K V) (i : Nat) : MapState K V :=
  setSlot s i { slotAt s i with check := true }

/-- The write `R[i].removed = true` performed by `remove`. -/
def setRemoved (s : MapState K V) (i : Nat) : MapState K V :=
  setSlot s i { slotAt s i with removed := true }

/-- The claiming loop of `insert_and_set`: starting at the home slot, try
to CAS each slot's `taken` flag; stop at the first free slot, and report
failure (`none`, the "Hash table overfull" exit) when the probe wraps back
to the home slot.  The loop visits each slot at most once, so fuel `s.m`
is exact; callers always pass `fuel = s.m`. -/
def claimLoop (s : MapState K V) (start : Nat) : Nat → Nat → Option Nat
  | _, 0 => none
  | i, fuel + 1 =>
    if (slotAt s i).taken then
      let i' := next_index s.m i
      if i' = start then none else claimLoop s start i' fuel
    else some i

/-- The possible outcomes of `insert_and_set`, distinguishing the two
`return false` sites of the source: `CapacityExceeded` is the claiming-loop
wrap (which prints "Hash table overfull"), `LostRace` is the failing CAS on
an already-set `check` flag of another slot holding the same key.  The C++
boolean return is `true` exactly for `Success`. -/
inductive InsertOutcome where
  | Success
  | LostRace
  | CapacityExceeded
  deriving DecidableEq, Repr

/-- The verification scan of `insert_and_set` (lines 70-79 of
convex_hash_map.h): walk the probe chain from the home slot while slots are
taken; at each slot holding the same key, CAS its `check` flag; a failing
CAS returns false (a lost race), a successful one marks the slot and the
scan continues; reaching an untaken slot returns true.  The loop has no
wrap-around exit, so `none` (fuel exhausted, with fuel uniformly larger
than any terminating scan needs) models nontermination. -/
def checkScan (s : MapState K V) (k : K) : Nat → Nat → Option (Bool × MapState K V)
  | _, 0 => none
  | i, fuel + 1 =>
    if (slotAt s i).taken then
      if (slotAt s i).key = k then
        if (slotAt s i).check then some (false, s)
        else checkScan (setCheck s i) k (next_index s.m i) fuel
      else checkScan s k (next_index s.m i) fuel
    else some (true, s)

/-- `insert_and_set(k, v)`: claim the first free slot from the home slot
(failing with `CapacityExceeded` when the probe wraps), write the key/value
pair into the claimed slot, then run the verification scan.  `none` models
a scan that never terminates; fuel `2 * m + 1` is enough for every
terminating scan (the scan can traverse the table at most once before its
own `check` write stops it on the second visit). -/
def insert_and_set (hash : K → Nat) (s : MapState K V) (k : K) (v : V) :
    Option (InsertOutcome × MapState K V) :=
  let start := start_index hash s k
  match claimLoop s start start s.m with
  | none => some (.CapacityExceeded, s)
  | some j =>
    let s1 := writeSlot s j k v
    match checkScan s1 k start (2 * s.m + 1) with
    | none => none
    | some (true, s2) => some (.Success, s2)
    | some (false, s2) => some (.LostRace, s2)

/-- The scan loop of `remove` (lines 84-94): stop with `false` at the first
untaken slot, mark the first taken, non-removed slot with a matching key as
removed and stop with `true`; no wrap-around exit. -/
def removeLoop (s : MapState K V) (k : K) : Nat → Nat → Option (Bool × MapState K V)
  | _, 0 => none
  | i, fuel + 1 =>
    if (slotAt s i).taken = false then some (false, s)
    else if (slotAt s i).removed = false ∧ (slotAt s i).key = k then
      some (true, setRemoved s i)
    else removeLoop s k (next_index s.m i) fuel

/-- `remove(k)`, scanning from the home slot with fuel `m` (enough for
every terminating scan: any stopping slot is reached within `m` probes). -/
def remove (hash : K → Nat) (s : MapState K V) (k : K) : Option (Bool × MapState K V) :=
  removeLoop s k (start_index hash s k) s.m

/-- The scan loop of `get_value` (lines 96-108): while slots are taken,
return the value of the first slot whose key equals `k` and whose value
differs from the excluded value `v`; reaching an untaken slot returns
"not found" (the inner `none`); the `removed` flag is never consulted. -/
def getLoop (s : MapState K V) (k : K) (v : V) : Nat → Nat → Option (Option V)
  | _, 0 => none
  | i, fuel + 1 =>
    if (slotAt s i).taken then
      if (slotAt s i).key = k ∧ (slotAt s i).value ≠ v then
        some (some (slotAt s i).value)
      else getLoop s k v (next_index s.m i) fuel
    else some none

/-- `get_value(k, v)`, scanning from the home slot with fuel `m`. -/
def get_value (hash : K → Nat) (s : MapState K V) (k : K) (v : V) : Option (Option V) :=
  getLoop s k v (start_index hash s k) s.m

/-- `keys()`: `map_maybe` over the slots in order, keeping the key of every
slot observed as taken and not removed. -/
def mkeys (s : MapState K V) : List K :=
  s.slots.filterMap fun e => if e.taken ∧ ¬ e.removed then some e.key else none

/-- The keys of all taken slots in slot order (tombstoned ones included);
`mkeys` is its restriction to non-removed slots. -/
def takenKeys (s : MapState K V) : List K :=
  s.slots.filterMap fun e => if e.taken then some e.key else none

/-- Number of taken slots. -/
def countTaken (s : MapState K V) : Nat :=
  (s.slots.filter (·.taken)).length

/-- Sequential execution of a list of `insert_and_set` calls, returning the
outcomes in order; `none` if some call's verification scan does not
terminate. -/
def runInserts (hash : K → Nat) :
    MapState K V → List (K × V) → Option (List InsertOutcome × MapState K V)
  | s, [] => some ([], s)
  | s, (k, v) :: rest =>
    match insert_and_set hash s k v with
    | none => none
    | some (o, s') =>
      match runInserts hash s' rest with
      | none => none
      | some (os, s'') => some (o :: os, s'')

/-- The outcome the map documentation assigns to each call of a sequential
insert run within capacity: the first call on a key succeeds, every later
call on the same key loses the race. -/
def expectedOuts : List K → List (K × V) → List InsertOutcome
  | _, [] => []
  | seen, (k, _) :: rest =>
    (if k ∈ seen then .LostRace else .Success) :: expectedOuts (k :: seen) rest

/-- Probe position reached after `t` steps of `next_index` from `i`. -/
def addIdx (m : Nat) : Nat → Nat → Nat
  | i, 0 => i
  | i, t + 1 => addIdx m (next_index m i) t

/-- Cyclic probe distance from position `i` to position `j` in a table of
`m` slots. -/
def distIdx (m i j : Nat) : Nat := if i ≤ j then j - i else m + j - i

/-- The invariant maintained by a sequence of `insert_and_set` calls on a
table state, where `ks` is the multiset of keys of the calls performed so
far (each call, winning or losing, claims one slot and writes its key into
it).  `path` says the probe chain from a taken slot's home position to the
slot itself is fully taken; `winner` says the first slot in probe order
holding a given present key has its `check` flag set and is the only such
slot before it in probe order. -/
structure InsInv (hash : K → Nat) (s : MapState K V) (ks : List K) : Prop where
  hl : s.slots.length = s.m
  hm : 0 < s.m
  removedF : ∀ e ∈ s.slots, e.removed = false
  freeClean : ∀ j, j < s.m → (slotAt s j).taken = false → (slotAt s j).check = false
  keys_perm : List.Perm (takenKeys s) ks
  path : ∀ j, j < s.m → (slotAt s j).taken = true →
    ∀ t, t < distIdx s.m (hash (slotAt s j).key % s.m) j →
      (slotAt s (addIdx s.m (hash (slotAt s j).key % s.m) t)).taken = true
  winner : ∀ k : K, (∃ j, j < s.m ∧ (slotAt s j).taken = true ∧ (slotAt s j).key = k) →
    ∃ w, w < s.m ∧ (slotAt s w).taken = true ∧ (slotAt s w).key = k ∧
      (slotAt s w).check = true ∧
      ∀ t, t < distIdx s.m (hash k % s.m) w →
        ¬((slotAt s (addIdx s.m (hash k % s.m) t)).taken = true ∧
          (slotAt s (addIdx s.m (hash k % s.m) t)).key = k)


end CHM

/-! Embedding of the hull builder (src/examples/convex_hull_3d.h). -/

/-- Point identifier (C++ `point_id = int`). -/
abbrev point_id := Int

/-- A facet: `using tri = std::array<point_id,3>`. -/
abbrev tri := point_id × point_id × point_id

/-- A ridge: `using edge = std::array<point_id,2>`. -/
abbrev edge := point_id × point_id

/-- `struct point`: identifier and coordinates.  Coordinates (C++ `float`,
promoted to `double` in the predicates) are modelled as exact rationals;
none of the claims settled here depends on rounding. -/
structure point where
  id : point_id
  x : ℚ
  y : ℚ
  z : ℚ
  deriving DecidableEq, Repr

instance : Inhabited point := ⟨⟨0, 0, 0, 0⟩⟩

/-- `struct vect` (C++ `double` components). -/
structure vect where
  x : ℚ
  y : ℚ
  z : ℚ
  deriving DecidableEq, Repr

/-- `get_normal_vect`: cross product of `b - a` and `c - a`. -/
def get_normal_vect (a b c : point) : vect :=
  ⟨(b.y - a.y) * (c.z - a.z) - (b.z - a.z) * (c.y - a.y),
   (b.z - a.z) * (c.x - a.x) - (b.x - a.x) * (c.z - a.z),
   (b.x - a.x) * (c.y - a.y) - (b.y - a.y) * (c.x - a.x)⟩

/-- `is_above`: sign test `dist >= 0` of the dot product of `a - target`
with the normal. -/
def is_above (a : point) (normal : vect) (target : point) : Bool :=
  decide (0 ≤ (a.x - target.x) * normal.x + (a.y - target.y) * normal.y +
    (a.z - target.z) * normal.z)

/-- `parlay::tabulate n f` as a list. -/
def tabulate {α : Type} (n : Nat) (f : Nat → α) : List α := (List.range n).map f

/-- `parlay::pack`: keep the elements whose flag is true, preserving
order. -/
def pack {α : Type} (xs : List α) (keep : List Bool) : List α :=
  (xs.zip keep).filterMap fun p => if p.2 then some p.1 else none

/-- `parlay::merge` of two point sequences ordered by `operator<`
(comparison by identifier), taking from the first sequence on ties. -/
def pmerge : List point → List point → List point
  | [], ys => ys
  | x :: xs, [] => x :: xs
  | x :: xs, y :: ys =>
    if y.id < x.id then y :: pmerge (x :: xs) ys
    else x :: pmerge xs (y :: ys)
termination_by l1 l2 => l1.length + l2.length

/-- `struct triangle`: facet, hull point `pid` not in the triangle, and
conflict list. -/
structure triangle where
  t : tri
  pid : point_id
  conflicts : List point
  deriving DecidableEq, Repr

instance : Inhabited triangle := ⟨⟨(0, 0, 0), 0, []⟩⟩

/-- `triangle_ptr = std::shared_ptr<triangle>`: an allocation identifier
(fresh per `make_shared`, giving the pointer identity that `get_value`
compares with `!=`) paired with the immutable record. -/
abbrev tptr := Nat × triangle

/-- Index a point sequence by identifier (`points[id]`; the input contract
makes identifiers dense, so the identifier is the index). -/
def pointAt (points : List point) (i : point_id) : point :=
  points.getD i.toNat default

/-- `min_conflicts`: identifier of the head conflict point, or the
sentinel `n` when the list is empty. -/
def min_conflicts (n : point_id) (t : triangle) : point_id :=
  if t.conflicts.length = 0 then n else (t.conflicts.getD 0 default).id

/-- `get_visible_points`: keep the points of `p` lying on the opposite
side of facet `t`'s plane from the reference point `pid` (`tabulate` the
keep flags, then `pack`). -/
def get_visible_points (points : List point) (t : tri) (pid : point_id)
    (p : List point) : List point :=
  let normal := get_normal_vect (pointAt points t.1) (pointAt points t.2.1)
    (pointAt points t.2.2)
  let is_convex_above := is_above (pointAt points t.1) normal (pointAt points pid)
  pack p (tabulate p.length fun i =>
    decide (is_convex_above ≠ is_above (pointAt points t.1) normal (p.getD i default)))

/-- The conflict-list union step of `process_ridge`: `parlay::merge` of the
two lists, then the `keep` flags `(i != 0) && (uni[i].id != uni[i-1].id)`
(adjacent deduplication, which also drops index 0 — the consumed apex run)
and `pack`. -/
def conflict_union (c1 c2 : List point) : List point :=
  let uni := pmerge c1 c2
  pack uni (tabulate uni.length fun i =>
    decide (i ≠ 0) && decide ((uni.getD i default).id ≠ (uni.getD (i - 1) default).id))

/-- Index-free reformulation of the adjacent-deduplication `keep` flags of
`conflict_union`, used only in proofs: each element is kept exactly when
its identifier differs from the element at the previous position. -/
def dedupAux : point → List point → List point
  | _, [] => []
  | prev, x :: xs => if x.id ≠ prev.id then x :: dedupAux x xs else dedupAux x xs

/-- Index-free reformulation of the whole dedup-and-drop-head step of
`conflict_union` (index 0 is always dropped), used only in proofs. -/
def dedupSpec : List point → List point
  | [] => []
  | x :: xs => dedupAux x xs

/-- The hull builder's shared mutable state: the ridge map `map_facets`,
the hull set `convex_hull`, and an allocation counter modelling
`std::make_shared` pointer identities. -/
structure HullState where
  map_facets : CHM.MapState edge tptr
  convex_hull : CHM.MapState tri Bool
  cntr : Nat
  deriving DecidableEq, Repr

/-- The immutable per-run context of `Convex_Hull_3d`: the point sequence,
`n`, and the two hash functions (the `parlay::hash` template parameters,
external to this repository, hence kept abstract). -/
structure HullCtx where
  points : List point
  n : point_id
  hashE : edge → Nat
  hashT : tri → Nat

/-- Failure modes of the fuelled sequential execution. -/
inductive HullErr where
  | fuelOut
  | scanDiverge
  | emptyOptional
  deriving DecidableEq, Repr

/-- The `check_edge` lambda of `process_ridge`, with the recursive call
passed as `rec`: canonicalize the edge into `key` by sorting the two
identifiers, race to insert `key` into the ridge map; a winning insert
returns; otherwise (`false`, covering both a lost race and a capacity
failure — the source conflates them in one boolean) look up the peer
record with `get_value` — the source passes the raw edge `e` here, not the
canonical `key` — and `.value()` the optional (an empty optional is the
`emptyOptional` error), then recurse on the ridge. -/
def check_edge (C : HullCtx)
    (rec : tptr → edge → tptr → HullState → Except HullErr HullState)
    (e : edge) (tp : tptr) (st : HullState) : Except HullErr HullState :=
  let key := if e.1 < e.2 then e else (e.2, e.1)
  match CHM.insert_and_set C.hashE st.map_facets key tp with
  | none => .error .scanDiverge
  | some (.Success, mf) => .ok { st with map_facets := mf }
  | some (_, mf) =>
    match CHM.get_value C.hashE mf e tp with
    | none => .error .scanDiverge
    | some none => .error .emptyOptional
    | some (some tt) => rec tp e tt { st with map_facets := mf }

/-- `process_ridge(t1, r, t2)` under the sequential interleaving semantics
(the three `par_do3` branches run left to right), with explicit recursion
fuel (`fuelOut` models unbounded recursion; the loops inside map
operations report `scanDiverge`). -/
def process_ridge (C : HullCtx) : Nat → tptr → edge → tptr → HullState →
    Except HullErr HullState
  | 0, _, _, _, _ => .error .fuelOut
  | fuel + 1, t1, r, t2, st =>
    if t1.2.conflicts.length = 0 ∧ t2.2.conflicts.length = 0 then
      .ok st
    else if min_conflicts C.n t2.2 = min_conflicts C.n t1.2 then
      match CHM.remove C.hashT st.convex_hull t1.2.t with
      | none => .error .scanDiverge
      | some (_, h1) =>
        match CHM.remove C.hashT h1 t2.2.t with
        | none => .error .scanDiverge
        | some (_, h2) => .ok { st with convex_hull := h2 }
    else if min_conflicts C.n t2.2 < min_conflicts C.n t1.2 then
      process_ridge C fuel t2 r t1 st
    else
      let pid := min_conflicts C.n t1.2
      let t : tri := (r.1, r.2, pid)
      let t_new : tptr := (st.cntr,
        ⟨t, t1.2.pid, get_visible_points C.points t t1.2.pid
          (conflict_union t1.2.conflicts t2.2.conflicts)⟩)
      let st1 : HullState := { st with cntr := st.cntr + 1 }
      match CHM.remove C.hashT st1.convex_hull t1.2.t with
      | none => .error .scanDiverge
      | some (_, h1) =>
        match CHM.insert_and_set C.hashT h1 t true with
        | none => .error .scanDiverge
        | some (_, h2) =>
          match process_ridge C fuel t_new r t2 { st1 with convex_hull := h2 } with
          | .error e => .error e
          | .ok stA =>
            match check_edge C (process_ridge C fuel) (r.1, pid) t_new stA with
            | .error e => .error e
            | .ok stB => check_edge C (process_ridge C fuel) (r.2, pid) t_new stB

/-- Sequence an `insert_and_set` on the hull set, mapping scan divergence
to the corresponding error (the C++ discards the boolean result). -/
def insT (hashT : tri → Nat) (k : tri) (s : CHM.MapState tri Bool) :
    Except HullErr (CHM.MapState tri Bool) :=
  match CHM.insert_and_set hashT s k true with
  | none => .error .scanDiverge
  | some (_, s') => .ok s'

/-- The `Convex_Hull_3d` constructor under the sequential semantics: build
the two maps sized `6 * P.size()`, seed the hull set with the four
tetrahedron facets, build the four initial triangle records over the
points with index above 3, then resolve the six seed ridges in the
`share_info` order. -/
def hull_setup (hashE : edge → Nat) (hashT : tri → Nat) (P : List point)
    (fuel : Nat) : Except HullErr HullState := do
  let C : HullCtx := ⟨P, (P.length : Int), hashE, hashT⟩
  let ch0 : CHM.MapState tri Bool := CHM.mkMap (6 * P.length)
  let mf0 : CHM.MapState edge tptr := CHM.mkMap (6 * P.length)
  let ch1 ← insT hashT (0, 1, 2) ch0
  let ch2 ← insT hashT (1, 2, 3) ch1
  let ch3 ← insT hashT (0, 2, 3) ch2
  let ch4 ← insT hashT (0, 1, 3) ch3
  let target_points := pack P (tabulate P.length fun i => decide (3 < i))
  let t0 : tptr := (0, ⟨(0, 1, 2), 3, get_visible_points P (0, 1, 2) 3 target_points⟩)
  let t1 : tptr := (1, ⟨(1, 2, 3), 0, get_visible_points P (1, 2, 3) 0 target_points⟩)
  let t2 : tptr := (2, ⟨(0, 2, 3), 1, get_visible_points P (0, 2, 3) 1 target_points⟩)
  let t3 : tptr := (3, ⟨(0, 1, 3), 2, get_visible_points P (0, 1, 3) 2 target_points⟩)
  let st0 : HullState := ⟨mf0, ch4, 4⟩
  let st1 ← process_ridge C fuel t0 (1, 2) t1 st0
  let st2 ← process_ridge C fuel t0 (0, 2) t2 st1
  let st3 ← process_ridge C fuel t0 (0, 1) t3 st2
  let st4 ← process_ridge C fuel t1 (2, 3) t2 st3
  let st5 ← process_ridge C fuel t1 (1, 3) t3 st4
  process_ridge C fuel t2 (0, 3) t3 st5

/-- `convex_hull_3d(P)`: run the constructor, then enumerate the hull
set's live keys. -/
def convex_hull_3d (hashE : edge → Nat) (hashT : tri → Nat) (P : List point)
    (fuel : Nat) : Except HullErr (List tri) :=
  (hull_setup hashE hashT P fuel).map fun st => CHM.mkeys st.convex_hull

/-- Accumulate decimal digits; `none` on the first non-digit character. -/
def parseDigitsAux : Nat → List Char → Option Nat
  | acc, [] => some acc
  | acc, c :: cs =>
    if c.isDigit then parseDigitsAux (acc * 10 + (c.toNat - 48)) cs else none

/-- Modelled from the spec: `std::stoi` (C++ standard library, not part of
this repository's sources) applied to the single argument; `none` models
the exception thrown when the argument is not parseable as an integer (an
optional sign followed by at least one decimal digit). -/
def stoi_model (s : String) : Option Int :=
  match s.data with
  | [] => none
  | c :: cs =>
    if c = '-' then
      match cs with
      | [] => none
      | _ => (parseDigitsAux 0 cs).map fun n => -(n : Int)
    else if c = '+' then
      match cs with
      | [] => none
      | _ => (parseDigitsAux 0 cs).map fun n => (n : Int)
    else (parseDigitsAux 0 (c :: cs)).map fun n => (n : Int)

/-- The argument handling of `main` (src/examples/convex_hull_3d.cpp):
`argc != 2` prints the usage string and falls through to the end of
`main`, which returns 0; an unparseable argument prints the usage string
and returns 1.  The result is `.error (printed lines, exit status)` when
`main` stops in the argument handling, and `.ok n` when it proceeds to the
hull computation with point count `n`. -/
def driver_cli (args : List String) : Except (List String × Nat) Int :=
  if args.length ≠ 2 then .error (["Usage: <n>"], 0)
  else
    match stoi_model (args.getD 1 "") with
    | none => .error (["Usage: <n>"], 1)
    | some n => .ok n


namespace CHM

theorem next_index_eq_mod {m i : Nat} (h : i < m) : next_index m i = (i + 1) % m := by
  unfold next_index
  by_cases hi : i + 1 = m
  · simp [hi]
  · rw [if_neg hi, Nat.mod_eq_of_lt (by omega)]

theorem next_index_lt {m i : Nat} (hm : 0 < m) (h : i < m) : next_index m i < m := by
  rw [next_index_eq_mod h]; exact Nat.mod_lt _ hm

theorem addIdx_succ_left (m i t : Nat) :
    addIdx m i (t + 1) = addIdx m (next_index m i) t := rfl

theorem addIdx_eq_mod {m : Nat} (hm : 0 < m) :
    ∀ (t i : Nat), i < m → addIdx m i t = (i + t) % m := by
  intro t
  induction t with
  | zero => intro i hi; simp [addIdx, Nat.mod_eq_of_lt hi]
  | succ t ih =>
    intro i hi
    rw [addIdx_succ_left, ih _ (next_index_lt hm hi), next_index_eq_mod hi,
      Nat.mod_add_mod]
    have e : i + 1 + t = i + (t + 1) := by omega
    rw [e]

theorem addIdx_lt {m : Nat} (hm : 0 < m) {i : Nat} (hi : i < m) (t : Nat) :
    addIdx m i t < m := by
  rw [addIdx_eq_mod hm t i hi]; exact Nat.mod_lt _ hm

theorem mod_shift_ne {m start t : Nat} (hstart : start < m) (ht0 : 0 < t) (htm : t < m) :
    (start + t) % m ≠ start := by
  by_cases h : start + t < m
  · rw [Nat.mod_eq_of_lt h]; omega
  · rw [Nat.mod_eq_sub_mod (by omega), Nat.mod_eq_of_lt (by omega)]; omega

theorem addIdx_ne_start {m : Nat} {start t : Nat} (hstart : start < m) (ht0 : 0 < t)
    (htm : t < m) : addIdx m start t ≠ start := by
  rw [addIdx_eq_mod (by omega) t start hstart]
  exact mod_shift_ne hstart ht0 htm

theorem addIdx_inj {m : Nat} (hm : 0 < m) {i : Nat} (hi : i < m) {t₁ t₂ : Nat}
    (h₁ : t₁ < m) (h₂ : t₂ < m) (h : addIdx m i t₁ = addIdx m i t₂) : t₁ = t₂ := by
  rw [addIdx_eq_mod hm t₁ i hi, addIdx_eq_mod hm t₂ i hi] at h
  rcases Nat.lt_or_ge t₁ t₂ with hlt | hge
  · exfalso
    have key : ((i + t₁) % m + (t₂ - t₁)) % m = (i + t₁) % m := by
      rw [Nat.mod_add_mod]
      have e : i + t₁ + (t₂ - t₁) = i + t₂ := by omega
      rw [e, ← h]
    exact mod_shift_ne (Nat.mod_lt _ hm) (by omega) (by omega) key
  · rcases Nat.lt_or_ge t₂ t₁ with hlt | hge2
    · exfalso
      have key : ((i + t₂) % m + (t₁ - t₂)) % m = (i + t₂) % m := by
        rw [Nat.mod_add_mod]
        have e : i + t₂ + (t₁ - t₂) = i + t₁ := by omega
        rw [e, h]
      exact mod_shift_ne (Nat.mod_lt _ hm) (by omega) (by omega) key
    · omega

theorem addIdx_succ_right {m : Nat} (hm : 0 < m) {i : Nat} (hi : i < m) (t : Nat) :
    addIdx m i (t + 1) = next_index m (addIdx m i t) := by
  rw [addIdx_eq_mod hm (t + 1) i hi, next_index_eq_mod (addIdx_lt hm hi t),
    addIdx_eq_mod hm t i hi, Nat.mod_add_mod]
  congr 1

theorem addIdx_add {m : Nat} (hm : 0 < m) {i : Nat} (hi : i < m) (a b : Nat) :
    addIdx m i (a + b) = addIdx m (addIdx m i a) b := by
  rw [addIdx_eq_mod hm (a + b) i hi, addIdx_eq_mod hm b (addIdx m i a) (addIdx_lt hm hi a),
    addIdx_eq_mod hm a i hi, Nat.mod_add_mod]
  have e : i + a + b = i + (a + b) := by omega
  rw [e]

theorem exists_addIdx {m : Nat} (hm : 0 < m) {i j : Nat} (hi : i < m) (hj : j < m) :
    ∃ d, d < m ∧ addIdx m i d = j := by
  by_cases h : i ≤ j
  · refine ⟨j - i, by omega, ?_⟩
    rw [addIdx_eq_mod hm _ i hi]
    have e : i + (j - i) = j := by omega
    rw [e, Nat.mod_eq_of_lt hj]
  · refine ⟨m + j - i, by omega, ?_⟩
    rw [addIdx_eq_mod hm _ i hi]
    have e : i + (m + j - i) = m + j := by omega
    rw [e, Nat.add_mod_left, Nat.mod_eq_of_lt hj]

section StateLemmas

variable {K V : Type} [DecidableEq K] [DecidableEq V] [Inhabited K] [Inhabited V]

theorem getD_set_self {α : Type} [Inhabited α] :
    ∀ (l : List α) (i : Nat) (e : α), i < l.length → (l.set i e).getD i default = e := by
  intro l
  induction l with
  | nil => intro i e h; simp at h
  | cons a l ih =>
    intro i e h
    cases i with
    | zero => rfl
    | succ i => simpa using ih i e (by simpa using h)

theorem getD_set_ne {α : Type} [Inhabited α] :
    ∀ (l : List α) (i j : Nat) (e : α), j ≠ i → (l.set i e).getD j default = l.getD j default := by
  intro l
  induction l with
  | nil => intro i j e _; simp
  | cons a l ih =>
    intro i j e h
    cases i with
    | zero =>
      cases j with
      | zero => exact absurd rfl h
      | succ j => rfl
    | succ i =>
      cases j with
      | zero => rfl
      | succ j => simpa using ih i j e (by omega)

@[simp] theorem m_setSlot (s : MapState K V) (i : Nat) (e : MEntry K V) :
    (setSlot s i e).m = s.m := rfl

@[simp] theorem length_setSlot (s : MapState K V) (i : Nat) (e : MEntry K V) :
    (setSlot s i e).slots.length = s.slots.length := by
  simp [setSlot]

theorem slotAt_setSlot_self {s : MapState K V} {i : Nat} (h : i < s.slots.length)
    (e : MEntry K V) : slotAt (setSlot s i e) i = e :=
  getD_set_self s.slots i e h

theorem slotAt_setSlot_ne (s : MapState K V) {i j : Nat} (h : j ≠ i) (e : MEntry K V) :
    slotAt (setSlot s i e) j = slotAt s j :=
  getD_set_ne s.slots i j e h

@[simp] theorem m_writeSlot (s : MapState K V) (i : Nat) (k : K) (v : V) :
    (writeSlot s i k v).m = s.m := rfl

@[simp] theorem m_setCheck (s : MapState K V) (i : Nat) : (setCheck s i).m = s.m := rfl

@[simp] theorem m_setRemoved (s : MapState K V) (i : Nat) : (setRemoved s i).m = s.m := rfl

@[simp] theorem length_writeSlot (s : MapState K V) (i : Nat) (k : K) (v : V) :
    (writeSlot s i k v).slots.length = s.slots.length := by simp [writeSlot]

@[simp] theorem length_setCheck (s : MapState K V) (i : Nat) :
    (setCheck s i).slots.length = s.slots.length := by simp [setCheck]

@[simp] theorem length_setRemoved (s : MapState K V) (i : Nat) :
    (setRemoved s i).slots.length = s.slots.length := by simp [setRemoved]

theorem slotAt_writeSlot_self {s : MapState K V} {i : Nat} (h : i < s.slots.length)
    (k : K) (v : V) :
    slotAt (writeSlot s i k v) i = { slotAt s i with taken := true, key := k, value := v } :=
  slotAt_setSlot_self h _

theorem slotAt_writeSlot_ne (s : MapState K V) {i j : Nat} (h : j ≠ i) (k : K) (v : V) :
    slotAt (writeSlot s i k v) j = slotAt s j :=
  slotAt_setSlot_ne s h _

theorem slotAt_setCheck_self {s : MapState K V} {i : Nat} (h : i < s.slots.length) :
    slotAt (setCheck s i) i = { slotAt s i with check := true } :=
  slotAt_setSlot_self h _

theorem slotAt_setCheck_ne (s : MapState K V) {i j : Nat} (h : j ≠ i) :
    slotAt (setCheck s i) j = slotAt s j :=
  slotAt_setSlot_ne s h _

theorem slotAt_setRemoved_self {s : MapState K V} {i : Nat} (h : i < s.slots.length) :
    slotAt (setRemoved s i) i = { slotAt s i with removed := true } :=
  slotAt_setSlot_self h _

theorem slotAt_setRemoved_ne (s : MapState K V) {i j : Nat} (h : j ≠ i) :
    slotAt (setRemoved s i) j = slotAt s j :=
  slotAt_setSlot_ne s h _

end StateLemmas

section ScanLemmas

variable {K V : Type} [DecidableEq K] [DecidableEq V] [Inhabited K] [Inhabited V]
variable {s : MapState K V} {k : K} {v : V}

theorem bool_eq_true_of_ne_false {b : Bool} (h : ¬ b = false) : b = true := by
  cases b
  · exact absurd rfl h
  · rfl

theorem slotAt_mem (hl : s.slots.length = s.m) {i : Nat} (hi : i < s.m) :
    slotAt s i ∈ s.slots := by
  have h : i < s.slots.length := by omega
  rw [slotAt, List.getD_eq_getElem s.slots default h]
  exact List.getElem_mem h

theorem forall_slots_iff (hl : s.slots.length = s.m) (p : MEntry K V → Prop) :
    (∀ e ∈ s.slots, p e) ↔ ∀ j, j < s.m → p (slotAt s j) := by
  constructor
  · intro h j hj
    exact h _ (slotAt_mem hl hj)
  · intro h e he
    obtain ⟨j, hj, rfl⟩ := List.getElem_of_mem he
    have hj' : j < s.m := by omega
    have : slotAt s j = s.slots[j] := by
      rw [slotAt, List.getD_eq_getElem s.slots default hj]
    rw [← this]
    exact h j hj'

theorem slotAt_setCheck_fields (s : MapState K V) (i x : Nat) :
    (slotAt (setCheck s i) x).taken = (slotAt s x).taken ∧
    (slotAt (setCheck s i) x).key = (slotAt s x).key ∧
    (slotAt (setCheck s i) x).removed = (slotAt s x).removed ∧
    (slotAt (setCheck s i) x).value = (slotAt s x).value := by
  by_cases hx : x = i
  · subst hx
    by_cases hi : x < s.slots.length
    · rw [slotAt_setCheck_self hi]
      exact ⟨rfl, rfl, rfl, rfl⟩
    · have hset : setCheck s x = s := by
        unfold setCheck setSlot
        rw [List.set_eq_of_length_le (by omega)]
      rw [hset]
      exact ⟨rfl, rfl, rfl, rfl⟩
  · rw [slotAt_setCheck_ne s hx]
    exact ⟨rfl, rfl, rfl, rfl⟩

theorem slotAt_setRemoved_fields (s : MapState K V) (i x : Nat) :
    (slotAt (setRemoved s i) x).taken = (slotAt s x).taken ∧
    (slotAt (setRemoved s i) x).key = (slotAt s x).key ∧
    (slotAt (setRemoved s i) x).check = (slotAt s x).check ∧
    (slotAt (setRemoved s i) x).value = (slotAt s x).value := by
  by_cases hx : x = i
  · subst hx
    by_cases hi : x < s.slots.length
    · rw [slotAt_setRemoved_self hi]
      exact ⟨rfl, rfl, rfl, rfl⟩
    · have hset : setRemoved s x = s := by
        unfold setRemoved setSlot
        rw [List.set_eq_of_length_le (by omega)]
      rw [hset]
      exact ⟨rfl, rfl, rfl, rfl⟩
  · rw [slotAt_setRemoved_ne s hx]
    exact ⟨rfl, rfl, rfl, rfl⟩

theorem claimLoop_succ (start i fuel : Nat) :
    claimLoop s start i (fuel + 1) =
      if (slotAt s i).taken then
        (if next_index s.m i = start then none else claimLoop s start (next_index s.m i) fuel)
      else some i := rfl

theorem checkScan_succ (i fuel : Nat) :
    checkScan s k i (fuel + 1) =
      if (slotAt s i).taken then
        (if (slotAt s i).key = k then
          (if (slotAt s i).check then some (false, s)
           else checkScan (setCheck s i) k (next_index s.m i) fuel)
         else checkScan s k (next_index s.m i) fuel)
      else some (true, s) := rfl

theorem removeLoop_succ (i fuel : Nat) :
    removeLoop s k i (fuel + 1) =
      if (slotAt s i).taken = false then some (false, s)
      else if (slotAt s i).removed = false ∧ (slotAt s i).key = k then
        some (true, setRemoved s i)
      else removeLoop s k (next_index s.m i) fuel := rfl

theorem getLoop_succ (i fuel : Nat) :
    getLoop s k v i (fuel + 1) =
      if (slotAt s i).taken then
        (if (slotAt s i).key = k ∧ (slotAt s i).value ≠ v then
          some (some (slotAt s i).value)
         else getLoop s k v (next_index s.m i) fuel)
      else some none := rfl

theorem claimLoop_skip {start i : Nat} (d : Nat)
    (h : ∀ t, t < d → (slotAt s (addIdx s.m i t)).taken = true)
    (hne : ∀ t, 0 < t → t ≤ d → addIdx s.m i t ≠ start) (fuel : Nat) :
    claimLoop s start i (d + fuel) = claimLoop s start (addIdx s.m i d) fuel := by
  induction d generalizing i with
  | zero => rw [Nat.zero_add]; rfl
  | succ d ih =>
    have h0 : (slotAt s i).taken = true := h 0 (by omega)
    have hne1 : next_index s.m i ≠ start := hne 1 (by omega) (by omega)
    have e : d + 1 + fuel = (d + fuel) + 1 := by omega
    rw [e, claimLoop_succ, if_pos h0, if_neg hne1]
    exact ih (fun t ht => h (t + 1) (by omega)) (fun t ht0 htd => hne (t + 1) (by omega) (by omega))

theorem claimLoop_free {start i : Nat} (h : (slotAt s i).taken = false) (fuel : Nat) :
    claimLoop s start i (fuel + 1) = some i := by
  rw [claimLoop_succ, if_neg (by simp [h])]

theorem claimLoop_reaches (hl : s.slots.length = s.m) (hm : 0 < s.m) {start : Nat}
    (hstart : start < s.m) (hfree : ∃ e ∈ s.slots, e.taken = false) :
    ∃ d, d < s.m ∧ (slotAt s (addIdx s.m start d)).taken = false ∧
      (∀ t, t < d → (slotAt s (addIdx s.m start t)).taken = true) ∧
      claimLoop s start start s.m = some (addIdx s.m start d) := by
  obtain ⟨e, he, hef⟩ := hfree
  obtain ⟨j, hj, rfl⟩ := List.getElem_of_mem he
  have hj' : j < s.m := by omega
  have hjs : slotAt s j = s.slots[j] := by
    rw [slotAt, List.getD_eq_getElem s.slots default hj]
  obtain ⟨d₀, hd₀, hidx⟩ := exists_addIdx hm hstart hj'
  have hP : ∃ t, (slotAt s (addIdx s.m start t)).taken = false :=
    ⟨d₀, by rw [hidx, hjs]; exact hef⟩
  classical
  let d := Nat.find hP
  have hdle : d ≤ d₀ := Nat.find_le (by rw [hidx, hjs]; exact hef)
  have hdm : d < s.m := by omega
  have hdf : (slotAt s (addIdx s.m start d)).taken = false := Nat.find_spec hP
  have hbefore : ∀ t, t < d → (slotAt s (addIdx s.m start t)).taken = true := by
    intro t ht
    exact bool_eq_true_of_ne_false (Nat.find_min hP ht)
  refine ⟨d, hdm, hdf, hbefore, ?_⟩
  have hsplit : s.m = d + (s.m - d) := by omega
  have h1 : claimLoop s start start s.m = claimLoop s start start (d + (s.m - d)) := by
    rw [← hsplit]
  rw [h1, claimLoop_skip d hbefore
    (fun t ht0 htd => addIdx_ne_start hstart ht0 (by omega))]
  have hfuel : s.m - d = (s.m - d - 1) + 1 := by omega
  have h2 : claimLoop s start (addIdx s.m start d) (s.m - d) =
      claimLoop s start (addIdx s.m start d) ((s.m - d - 1) + 1) := by rw [← hfuel]
  rw [h2, claimLoop_free hdf]

theorem claimLoop_all_taken (h : ∀ j, j < s.m → (slotAt s j).taken = true) (hm : 0 < s.m)
    {start : Nat} :
    ∀ fuel i, i < s.m → claimLoop s start i fuel = none := by
  intro fuel
  induction fuel with
  | zero => intro i _; rfl
  | succ fuel ih =>
    intro i hi
    rw [claimLoop_succ, if_pos (h i hi)]
    by_cases hw : next_index s.m i = start
    · rw [if_pos hw]
    · rw [if_neg hw]
      exact ih _ (next_index_lt hm hi)

theorem claimLoop_none_iff (hl : s.slots.length = s.m) (hm : 0 < s.m) {start : Nat}
    (hstart : start < s.m) :
    claimLoop s start start s.m = none ↔ ∀ e ∈ s.slots, e.taken = true := by
  constructor
  · intro hnone
    by_contra hcon
    have hfree : ∃ e ∈ s.slots, e.taken = false := by
      push_neg at hcon
      obtain ⟨e, he, hef⟩ := hcon
      exact ⟨e, he, by simpa using hef⟩
    obtain ⟨d, _, _, _, hsome⟩ := claimLoop_reaches hl hm hstart hfree
    rw [hsome] at hnone
    exact Option.noConfusion hnone
  · intro hall
    exact claimLoop_all_taken ((forall_slots_iff hl _).mp hall) hm s.m start hstart

theorem checkScan_stop_untaken {i : Nat} (h : (slotAt s i).taken = false) (fuel : Nat) :
    checkScan s k i (fuel + 1) = some (true, s) := by
  rw [checkScan_succ, if_neg (by simp [h])]

theorem checkScan_stop_checked {i : Nat} (h1 : (slotAt s i).taken = true)
    (h2 : (slotAt s i).key = k) (h3 : (slotAt s i).check = true) (fuel : Nat) :
    checkScan s k i (fuel + 1) = some (false, s) := by
  rw [checkScan_succ, if_pos h1, if_pos h2, if_pos h3]

theorem checkScan_step_set {i : Nat} (h1 : (slotAt s i).taken = true)
    (h2 : (slotAt s i).key = k) (h3 : (slotAt s i).check = false) (fuel : Nat) :
    checkScan s k i (fuel + 1) = checkScan (setCheck s i) k (next_index s.m i) fuel := by
  rw [checkScan_succ, if_pos h1, if_pos h2, if_neg (by simp [h3])]

theorem checkScan_skip_one {i : Nat} (h1 : (slotAt s i).taken = true)
    (h2 : (slotAt s i).key ≠ k) (fuel : Nat) :
    checkScan s k i (fuel + 1) = checkScan s k (next_index s.m i) fuel := by
  rw [checkScan_succ, if_pos h1, if_neg h2]

theorem checkScan_skip {i : Nat} (d : Nat)
    (h : ∀ t, t < d → (slotAt s (addIdx s.m i t)).taken = true ∧
      (slotAt s (addIdx s.m i t)).key ≠ k) (fuel : Nat) :
    checkScan s k i (d + fuel) = checkScan s k (addIdx s.m i d) fuel := by
  induction d generalizing i with
  | zero => rw [Nat.zero_add]; rfl
  | succ d ih =>
    have h0t : (slotAt s i).taken = true := (h 0 (by omega)).1
    have h0k : (slotAt s i).key ≠ k := (h 0 (by omega)).2
    have e : d + 1 + fuel = (d + fuel) + 1 := by omega
    rw [e, checkScan_skip_one h0t h0k]
    exact ih (fun t ht => h (t + 1) (by omega))

theorem checkScan_isSome {k : K} :
    ∀ (d : Nat) (s₁ : MapState K V) (i fuel : Nat), s₁.slots.length = s₁.m → 0 < s₁.m →
      i < s₁.m → (slotAt s₁ (addIdx s₁.m i d)).taken = false → d < fuel →
      (checkScan s₁ k i fuel).isSome = true := by
  intro d
  induction d with
  | zero =>
    intro s₁ i fuel hl hm hi hun hf
    obtain ⟨f, rfl⟩ : ∃ f, fuel = f + 1 := ⟨fuel - 1, by omega⟩
    have hun' : (slotAt s₁ i).taken = false := hun
    rw [checkScan_stop_untaken hun']
    rfl
  | succ d ih =>
    intro s₁ i fuel hl hm hi hun hf
    obtain ⟨f, rfl⟩ : ∃ f, fuel = f + 1 := ⟨fuel - 1, by omega⟩
    by_cases ht : (slotAt s₁ i).taken = true
    · by_cases hk : (slotAt s₁ i).key = k
      · by_cases hc : (slotAt s₁ i).check = true
        · rw [checkScan_stop_checked ht hk hc]; rfl
        · have hc' : (slotAt s₁ i).check = false := by simpa using hc
          rw [checkScan_step_set ht hk hc']
          apply ih (setCheck s₁ i) (next_index s₁.m i) f (by simpa using hl) hm
            (next_index_lt hm hi) _ (by omega)
          have e1 : (setCheck s₁ i).m = s₁.m := rfl
          rw [e1, (slotAt_setCheck_fields s₁ i _).1]
          exact hun
      · rw [checkScan_skip_one ht hk]
        exact ih s₁ (next_index s₁.m i) f hl hm (next_index_lt hm hi) hun (by omega)
    · have ht' : (slotAt s₁ i).taken = false := by simpa using ht
      rw [checkScan_stop_untaken ht']; rfl

theorem checkScan_none (hm : 0 < s.m)
    (hall : ∀ j, j < s.m → (slotAt s j).taken = true)
    (hnok : ∀ j, j < s.m → (slotAt s j).key ≠ k) :
    ∀ fuel i, i < s.m → checkScan s k i fuel = none := by
  intro fuel
  induction fuel with
  | zero => intro i _; rfl
  | succ fuel ih =>
    intro i hi
    rw [checkScan_skip_one (hall i hi) (hnok i hi)]
    exact ih _ (next_index_lt hm hi)

theorem removeLoop_stop_untaken {i : Nat} (h : (slotAt s i).taken = false) (fuel : Nat) :
    removeLoop s k i (fuel + 1) = some (false, s) := by
  rw [removeLoop_succ, if_pos h]

theorem removeLoop_hit {i : Nat} (h1 : (slotAt s i).taken = true)
    (h2 : (slotAt s i).removed = false) (h3 : (slotAt s i).key = k) (fuel : Nat) :
    removeLoop s k i (fuel + 1) = some (true, setRemoved s i) := by
  rw [removeLoop_succ, if_neg (by simp [h1]), if_pos ⟨h2, h3⟩]

theorem removeLoop_skip_one {i : Nat} (h1 : (slotAt s i).taken = true)
    (h2 : ¬((slotAt s i).removed = false ∧ (slotAt s i).key = k)) (fuel : Nat) :
    removeLoop s k i (fuel + 1) = removeLoop s k (next_index s.m i) fuel := by
  rw [removeLoop_succ, if_neg (by simp [h1]), if_neg h2]

theorem removeLoop_skip {i : Nat} (d : Nat)
    (h : ∀ t, t < d → (slotAt s (addIdx s.m i t)).taken = true ∧
      ¬((slotAt s (addIdx s.m i t)).removed = false ∧ (slotAt s (addIdx s.m i t)).key = k))
    (fuel : Nat) :
    removeLoop s k i (d + fuel) = removeLoop s k (addIdx s.m i d) fuel := by
  induction d generalizing i with
  | zero => rw [Nat.zero_add]; rfl
  | succ d ih =>
    have h0t : (slotAt s i).taken = true := (h 0 (by omega)).1
    have h0m : ¬((slotAt s i).removed = false ∧ (slotAt s i).key = k) := (h 0 (by omega)).2
    have e : d + 1 + fuel = (d + fuel) + 1 := by omega
    rw [e, removeLoop_skip_one h0t h0m]
    exact ih (fun t ht => h (t + 1) (by omega))

theorem removeLoop_isSome {k : K} (hm : 0 < s.m) :
    ∀ (d : Nat) (i fuel : Nat), i < s.m →
      (slotAt s (addIdx s.m i d)).taken = false → d < fuel →
      (removeLoop s k i fuel).isSome = true := by
  intro d
  induction d with
  | zero =>
    intro i fuel hi hun hf
    obtain ⟨f, rfl⟩ : ∃ f, fuel = f + 1 := ⟨fuel - 1, by omega⟩
    have hun' : (slotAt s i).taken = false := hun
    rw [removeLoop_stop_untaken hun']
    rfl
  | succ d ih =>
    intro i fuel hi hun hf
    obtain ⟨f, rfl⟩ : ∃ f, fuel = f + 1 := ⟨fuel - 1, by omega⟩
    by_cases ht : (slotAt s i).taken = true
    · by_cases hhit : (slotAt s i).removed = false ∧ (slotAt s i).key = k
      · rw [removeLoop_hit ht hhit.1 hhit.2]; rfl
      · rw [removeLoop_skip_one ht hhit]
        exact ih (next_index s.m i) f (next_index_lt hm hi) hun (by omega)
    · have ht' : (slotAt s i).taken = false := by simpa using ht
      rw [removeLoop_stop_untaken ht']; rfl

theorem removeLoop_none (hm : 0 < s.m)
    (hall : ∀ j, j < s.m → (slotAt s j).taken = true)
    (hnom : ∀ j, j < s.m → ¬((slotAt s j).removed = false ∧ (slotAt s j).key = k)) :
    ∀ fuel i, i < s.m → removeLoop s k i fuel = none := by
  intro fuel
  induction fuel with
  | zero => intro i _; rfl
  | succ fuel ih =>
    intro i hi
    rw [removeLoop_skip_one (hall i hi) (hnom i hi)]
    exact ih _ (next_index_lt hm hi)

theorem getLoop_stop_untaken {i : Nat} (h : (slotAt s i).taken = false) (fuel : Nat) :
    getLoop s k v i (fuel + 1) = some none := by
  rw [getLoop_succ, if_neg (by simp [h])]

theorem getLoop_hit {i : Nat} (h1 : (slotAt s i).taken = true)
    (h2 : (slotAt s i).key = k) (h3 : (slotAt s i).value ≠ v) (fuel : Nat) :
    getLoop s k v i (fuel + 1) = some (some (slotAt s i).value) := by
  rw [getLoop_succ, if_pos h1, if_pos ⟨h2, h3⟩]

theorem getLoop_skip_one {i : Nat} (h1 : (slotAt s i).taken = true)
    (h2 : ¬((slotAt s i).key = k ∧ (slotAt s i).value ≠ v)) (fuel : Nat) :
    getLoop s k v i (fuel + 1) = getLoop s k v (next_index s.m i) fuel := by
  rw [getLoop_succ, if_pos h1, if_neg h2]

theorem getLoop_skip {i : Nat} (d : Nat)
    (h : ∀ t, t < d → (slotAt s (addIdx s.m i t)).taken = true ∧
      ¬((slotAt s (addIdx s.m i t)).key = k ∧ (slotAt s (addIdx s.m i t)).value ≠ v))
    (fuel : Nat) :
    getLoop s k v i (d + fuel) = getLoop s k v (addIdx s.m i d) fuel := by
  induction d generalizing i with
  | zero => rw [Nat.zero_add]; rfl
  | succ d ih =>
    have h0t : (slotAt s i).taken = true := (h 0 (by omega)).1
    have h0m : ¬((slotAt s i).key = k ∧ (slotAt s i).value ≠ v) := (h 0 (by omega)).2
    have e : d + 1 + fuel = (d + fuel) + 1 := by omega
    rw [e, getLoop_skip_one h0t h0m]
    exact ih (fun t ht => h (t + 1) (by omega))

theorem getLoop_isSome {k : K} {v : V} (hm : 0 < s.m) :
    ∀ (d : Nat) (i fuel : Nat), i < s.m →
      (slotAt s (addIdx s.m i d)).taken = false → d < fuel →
      (getLoop s k v i fuel).isSome = true := by
  intro d
  induction d with
  | zero =>
    intro i fuel hi hun hf
    obtain ⟨f, rfl⟩ : ∃ f, fuel = f + 1 := ⟨fuel - 1, by omega⟩
    have hun' : (slotAt s i).taken = false := hun
    rw [getLoop_stop_untaken hun']
    rfl
  | succ d ih =>
    intro i fuel hi hun hf
    obtain ⟨f, rfl⟩ : ∃ f, fuel = f + 1 := ⟨fuel - 1, by omega⟩
    by_cases ht : (slotAt s i).taken = true
    · by_cases hhit : (slotAt s i).key = k ∧ (slotAt s i).value ≠ v
      · rw [getLoop_hit ht hhit.1 hhit.2]; rfl
      · rw [getLoop_skip_one ht hhit]
        exact ih (next_index s.m i) f (next_index_lt hm hi) hun (by omega)
    · have ht' : (slotAt s i).taken = false := by simpa using ht
      rw [getLoop_stop_untaken ht']; rfl

theorem getLoop_none (hm : 0 < s.m)
    (hall : ∀ j, j < s.m → (slotAt s j).taken = true)
    (hnom : ∀ j, j < s.m → ¬((slotAt s j).key = k ∧ (slotAt s j).value ≠ v)) :
    ∀ fuel i, i < s.m → getLoop s k v i fuel = none := by
  intro fuel
  induction fuel with
  | zero => intro i _; rfl
  | succ fuel ih =>
    intro i hi
    rw [getLoop_skip_one (hall i hi) (hnom i hi)]
    exact ih _ (next_index_lt hm hi)

/-- Helper: an index of the slot table whose entry is untaken, extracted from
a membership witness. -/
theorem exists_untaken_idx (hl : s.slots.length = s.m)
    (hfree : ∃ e ∈ s.slots, e.taken = false) :
    ∃ j, j < s.m ∧ (slotAt s j).taken = false := by
  obtain ⟨e, he, hef⟩ := hfree
  obtain ⟨j, hj, rfl⟩ := List.getElem_of_mem he
  refine ⟨j, by omega, ?_⟩
  rw [slotAt, List.getD_eq_getElem s.slots default hj]
  exact hef

end ScanLemmas

section InvariantDefs

variable {K V : Type} [DecidableEq K] [DecidableEq V] [Inhabited K] [Inhabited V]

theorem distIdx_lt {m i j : Nat} (hm : 0 < m) (hj : j < m) : distIdx m i j < m := by
  unfold distIdx
  split <;> omega

theorem addIdx_distIdx {m i j : Nat} (hm : 0 < m) (hi : i < m) (hj : j < m) :
    addIdx m i (distIdx m i j) = j := by
  unfold distIdx
  by_cases h : i ≤ j
  · rw [if_pos h, addIdx_eq_mod hm _ i hi]
    have e : i + (j - i) = j := by omega
    rw [e, Nat.mod_eq_of_lt hj]
  · rw [if_neg h, addIdx_eq_mod hm _ i hi]
    have e : i + (m + j - i) = m + j := by omega
    rw [e, Nat.add_mod_left, Nat.mod_eq_of_lt hj]

theorem distIdx_addIdx {m i d : Nat} (hm : 0 < m) (hi : i < m) (hd : d < m) :
    distIdx m i (addIdx m i d) = d := by
  have hlt : addIdx m i d < m := addIdx_lt hm hi d
  have h1 : addIdx m i (distIdx m i (addIdx m i d)) = addIdx m i d :=
    addIdx_distIdx hm hi hlt
  exact addIdx_inj hm hi (distIdx_lt hm hlt) hd h1

theorem length_filterMap_eq_countP {α β : Type} (f : α → Option β) :
    ∀ l : List α, (l.filterMap f).length = l.countP (fun a => (f a).isSome) := by
  intro l
  induction l with
  | nil => rfl
  | cons a l ih =>
    rw [List.filterMap_cons, List.countP_cons]
    cases h : f a <;> simp [h, ih]

theorem filterMap_congr_mem {α β : Type} (f g : α → Option β) :
    ∀ l : List α, (∀ a ∈ l, f a = g a) → l.filterMap f = l.filterMap g := by
  intro l
  induction l with
  | nil => intro _; rfl
  | cons a l ih =>
    intro h
    rw [List.filterMap_cons, List.filterMap_cons, h a (by simp),
      ih (fun a ha => h a (by simp [ha]))]

theorem filterMap_set_perm {α β : Type} (f : α → Option β) :
    ∀ (l : List α) (j : Nat) (e : α) (b : β) (hj : j < l.length),
      f (l[j]) = none → f e = some b →
      List.Perm ((l.set j e).filterMap f) (b :: l.filterMap f) := by
  intro l
  induction l with
  | nil => intro j e b hj; simp at hj
  | cons a l ih =>
    intro j e b hj hnone hsome
    cases j with
    | zero =>
      simp only [List.getElem_cons_zero] at hnone
      rw [List.set_cons_zero, List.filterMap_cons, List.filterMap_cons, hnone, hsome]
    | succ j =>
      simp only [List.getElem_cons_succ] at hnone
      rw [List.set_cons_succ, List.filterMap_cons, List.filterMap_cons]
      cases h : f a with
      | none => exact ih j e b (by simpa using hj) hnone hsome
      | some c =>
        exact ((ih j e b (by simpa using hj) hnone hsome).cons c).trans
          (List.Perm.swap b c _)

theorem filterMap_set_eq {α β : Type} (f : α → Option β) :
    ∀ (l : List α) (j : Nat) (e : α), (∀ hj : j < l.length, f e = f (l[j])) →
      (l.set j e).filterMap f = l.filterMap f := by
  intro l
  induction l with
  | nil => intro j e _; simp
  | cons a l ih =>
    intro j e h
    cases j with
    | zero =>
      have h0 : f e = f a := by simpa using h (by simp)
      rw [List.set_cons_zero, List.filterMap_cons, List.filterMap_cons, h0]
    | succ j =>
      rw [List.set_cons_succ, List.filterMap_cons, List.filterMap_cons,
        ih j e (fun hj => by simpa using h (by simpa using hj))]

theorem takenKeys_length {s : MapState K V} : (takenKeys s).length = countTaken s := by
  rw [takenKeys, length_filterMap_eq_countP, countTaken, ← List.countP_eq_length_filter]
  apply List.countP_congr
  intro e _
  cases h : e.taken <;> simp [h]

theorem mem_takenKeys {s : MapState K V} (hl : s.slots.length = s.m) {k : K} :
    k ∈ takenKeys s ↔
      ∃ j, j < s.m ∧ (slotAt s j).taken = true ∧ (slotAt s j).key = k := by
  rw [takenKeys, List.mem_filterMap]
  constructor
  · rintro ⟨e, he, hfe⟩
    obtain ⟨j, hj, rfl⟩ := List.getElem_of_mem he
    have hs : slotAt s j = s.slots[j] := by
      rw [slotAt, List.getD_eq_getElem s.slots default hj]
    by_cases ht : s.slots[j].taken = true
    · rw [if_pos ht] at hfe
      exact ⟨j, by omega, by rw [hs]; exact ⟨ht, by injection hfe⟩⟩
    · rw [if_neg ht] at hfe
      exact absurd hfe (by simp)
  · rintro ⟨j, hj, ht, hk⟩
    refine ⟨slotAt s j, slotAt_mem hl hj, ?_⟩
    rw [if_pos ht, hk]

theorem exists_free_of_lt {s : MapState K V} (hl : s.slots.length = s.m)
    (hcount : countTaken s < s.m) : ∃ e ∈ s.slots, e.taken = false := by
  by_contra hcon
  push_neg at hcon
  have hall : ∀ e ∈ s.slots, e.taken = true := fun e he => by
    simpa using hcon e he
  have : countTaken s = s.m := by
    rw [countTaken, ← List.countP_eq_length_filter, List.countP_eq_length.mpr hall, hl]
  omega

theorem mkeys_eq_takenKeys {s : MapState K V} (hrem : ∀ e ∈ s.slots, e.removed = false) :
    mkeys s = takenKeys s := by
  apply filterMap_congr_mem
  intro e he
  simp [hrem e he]

theorem insInv_init (hash : K → Nat) (size : Nat) :
    InsInv hash (mkMap size : MapState K V) [] := by
  have hl : (mkMap size : MapState K V).slots.length = (mkMap size : MapState K V).m := by
    simp [mkMap]
  have huntaken : ∀ j, (slotAt (mkMap size : MapState K V) j).taken = false := by
    intro j
    unfold slotAt mkMap
    by_cases hj : j < 100 + 3 * size / 2
    · rw [List.getD_eq_getElem _ default (by simpa using hj)]
      simp [List.getElem_replicate]
      rfl
    · rw [List.getD_eq_default]
      · rfl
      · simpa using hj
  refine ⟨hl, by show 0 < 100 + 3 * size / 2; omega, ?_, ?_, ?_, ?_, ?_⟩
  · intro e he
    have he' : e = default := by simpa [mkMap] using he
    rw [he']
    rfl
  · intro j _ _
    unfold slotAt mkMap
    by_cases hj : j < 100 + 3 * size / 2
    · rw [List.getD_eq_getElem _ default (by simpa using hj)]
      simp [List.getElem_replicate]
      rfl
    · rw [List.getD_eq_default]
      · rfl
      · simpa using hj
  · have : takenKeys (mkMap size : MapState K V) = [] := by
      rw [takenKeys, List.filterMap_eq_nil_iff]
      intro e he
      have he' : e = default := by simpa [mkMap] using he
      rw [he']
      rfl
    rw [this]
  · intro j _ ht
    rw [huntaken j] at ht
    exact absurd ht (by simp)
  · rintro k ⟨j, _, ht, _⟩
    rw [huntaken j] at ht
    exact absurd ht (by simp)

end InvariantDefs

section InsertStep

variable {K V : Type} [DecidableEq K] [DecidableEq V] [Inhabited K] [Inhabited V]

theorem insert_and_set_claimed {hash : K → Nat} {s : MapState K V} {k : K} {v : V} {j : Nat}
    (hclaim : claimLoop s (start_index hash s k) (start_index hash s k) s.m = some j) :
    insert_and_set hash s k v =
      match checkScan (writeSlot s j k v) k (start_index hash s k) (2 * s.m + 1) with
      | none => none
      | some (true, s2) => some (.Success, s2)
      | some (false, s2) => some (.LostRace, s2) := by
  simp only [insert_and_set]
  rw [hclaim]

theorem insert_and_set_overfull {hash : K → Nat} {s : MapState K V} {k : K} {v : V}
    (hclaim : claimLoop s (start_index hash s k) (start_index hash s k) s.m = none) :
    insert_and_set hash s k v = some (.CapacityExceeded, s) := by
  simp only [insert_and_set]
  rw [hclaim]

/-- The claiming-loop wrap (the "Hash table overfull" exit of
`insert_and_set`) happens exactly when every slot of the table is taken. -/
theorem insert_capacity_iff (hash : K → Nat) (s : MapState K V) (k : K) (v : V)
    (hl : s.slots.length = s.m) (hm : 0 < s.m) :
    (∃ s', insert_and_set hash s k v = some (.CapacityExceeded, s')) ↔
      ∀ e ∈ s.slots, e.taken = true := by
  have hstart : start_index hash s k < s.m := Nat.mod_lt _ hm
  constructor
  · rintro ⟨s', hins⟩
    by_contra hcon
    have hnone : ¬ claimLoop s (start_index hash s k) (start_index hash s k) s.m = none := by
      intro h
      exact hcon ((claimLoop_none_iff hl hm hstart).mp h)
    cases hclaim : claimLoop s (start_index hash s k) (start_index hash s k) s.m with
    | none => exact hnone hclaim
    | some j =>
      rw [insert_and_set_claimed hclaim] at hins
      cases hscan : checkScan (writeSlot s j k v) k (start_index hash s k) (2 * s.m + 1) with
      | none => rw [hscan] at hins; exact Option.noConfusion hins
      | some p =>
        obtain ⟨b, s2⟩ := p
        rw [hscan] at hins
        cases b <;> simp at hins
  · intro hall
    refine ⟨s, ?_⟩
    exact insert_and_set_overfull ((claimLoop_none_iff hl hm hstart).mpr hall)

/-- One step of the sequential insert run: under the invariant, with at
least two free slots, a call on a present key loses the race, a call on a
fresh key succeeds, and the invariant extends to the new key list. -/
theorem insert_step (hash : K → Nat) {s : MapState K V} {ks : List K} (k : K) (v : V)
    (inv : InsInv hash s ks) (hroom : ks.length + 1 < s.m) :
    ∃ s', insert_and_set hash s k v =
        some ((if k ∈ ks then InsertOutcome.LostRace else InsertOutcome.Success), s') ∧
      InsInv hash s' (k :: ks) ∧ s'.m = s.m := by
  obtain ⟨hl, hm, removedF, freeClean, keys_perm, path, winner⟩ := inv
  have hrem : ∀ x, x < s.m → (slotAt s x).removed = false :=
    (forall_slots_iff hl _).mp removedF
  have hhome : hash k % s.m < s.m := Nat.mod_lt _ hm
  have hcount : countTaken s = ks.length := by
    rw [← takenKeys_length]
    exact keys_perm.length_eq
  have hfree_ex : ∃ e ∈ s.slots, e.taken = false := exists_free_of_lt hl (by omega)
  obtain ⟨d, hdm, hdfree, hdbefore, hclaim⟩ := claimLoop_reaches hl hm hhome hfree_ex
  set j := addIdx s.m (hash k % s.m) d with hj_def
  have hjm : j < s.m := addIdx_lt hm hhome d
  have hjlen : j < s.slots.length := by omega
  set s1 := writeSlot s j k v with hs1_def
  have hs1m : s1.m = s.m := rfl
  have hs1len : s1.slots.length = s1.m := by
    rw [hs1_def]
    simp [hl]
  have hslot1j : slotAt s1 j = { slotAt s j with taken := true, key := k, value := v } :=
    slotAt_writeSlot_self hjlen k v
  have hslot1ne : ∀ x, x ≠ j → slotAt s1 x = slotAt s x := fun x hx =>
    slotAt_writeSlot_ne s hx k v
  have hslot1jt : (slotAt s1 j).taken = true := by rw [hslot1j]
  have hslot1jk : (slotAt s1 j).key = k := by rw [hslot1j]
  have hpos_ne_j : ∀ t, t ≠ d → t < s.m → addIdx s.m (hash k % s.m) t ≠ j := by
    intro t htd htm he
    rw [hj_def] at he
    exact htd (addIdx_inj hm hhome htm hdm he)
  have hclaim' : claimLoop s (start_index hash s k) (start_index hash s k) s.m = some j :=
    hclaim
  have hperm1 : List.Perm (takenKeys s1) (k :: takenKeys s) := by
    have hgj : s.slots[j] = slotAt s j :=
      (List.getD_eq_getElem s.slots default hjlen).symm
    have hfnone : (fun e => if e.taken = true then some e.key else none)
        (s.slots[j]) = none := by
      rw [hgj]
      show (if (slotAt s j).taken = true then some (slotAt s j).key else none) = none
      rw [hdfree]
      simp
    exact filterMap_set_perm _ s.slots j _ k hjlen hfnone (by simp)
  have hperm1' : List.Perm (takenKeys s1) (k :: ks) :=
    hperm1.trans (keys_perm.cons k)
  have hmono1 : ∀ x, (slotAt s x).taken = true → (slotAt s1 x).taken = true := by
    intro x hx
    by_cases hxj : x = j
    · subst hxj
      exact hslot1jt
    · rw [hslot1ne x hxj]
      exact hx
  by_cases hk : k ∈ ks
  · -- a slot with key k already exists: the verification scan loses the race
    have hktk : k ∈ takenKeys s := keys_perm.mem_iff.mpr hk
    obtain ⟨w, hwm, hwt, hwk, hwc, hwfirst⟩ := winner k ((mem_takenKeys hl).mp hktk)
    have hdwm : distIdx s.m (hash k % s.m) w < s.m := distIdx_lt hm hwm
    have haddw : addIdx s.m (hash k % s.m) (distIdx s.m (hash k % s.m) w) = w :=
      addIdx_distIdx hm hhome hwm
    have hpathw := path w hwm hwt
    rw [hwk] at hpathw
    have hw_ne_j : w ≠ j := by
      intro he
      rw [he] at hwt
      rw [hdfree] at hwt
      exact Bool.noConfusion hwt
    have hdw_ne_d : distIdx s.m (hash k % s.m) w ≠ d := by
      intro he
      rw [he, ← hj_def] at haddw
      exact hw_ne_j haddw.symm
    have hdw_lt_d : distIdx s.m (hash k % s.m) w < d := by
      rcases Nat.lt_or_ge (distIdx s.m (hash k % s.m) w) d with h | h
      · exact h
      · exfalso
        have hlt : d < distIdx s.m (hash k % s.m) w := by omega
        have := hpathw d hlt
        rw [← hj_def, hdfree] at this
        exact Bool.noConfusion this
    have hscan : checkScan s1 k (hash k % s.m) (2 * s.m + 1) = some (false, s1) := by
      have hskip : ∀ t, t < distIdx s.m (hash k % s.m) w →
          (slotAt s1 (addIdx s1.m (hash k % s.m) t)).taken = true ∧
          (slotAt s1 (addIdx s1.m (hash k % s.m) t)).key ≠ k := by
        intro t ht
        have hne : addIdx s.m (hash k % s.m) t ≠ j := hpos_ne_j t (by omega) (by omega)
        have hconv : addIdx s1.m (hash k % s.m) t = addIdx s.m (hash k % s.m) t := rfl
        rw [hconv, hslot1ne _ hne]
        refine ⟨hpathw t (by omega), ?_⟩
        intro hkey
        exact hwfirst t ht ⟨hpathw t (by omega), hkey⟩
      have e1 : 2 * s.m + 1 = distIdx s.m (hash k % s.m) w + (2 * s.m + 1 - distIdx s.m (hash k % s.m) w) := by
        omega
      rw [e1, checkScan_skip (distIdx s.m (hash k % s.m) w) hskip]
      have hconvw : addIdx s1.m (hash k % s.m) (distIdx s.m (hash k % s.m) w) = w := haddw
      rw [hconvw]
      have e2 : 2 * s.m + 1 - distIdx s.m (hash k % s.m) w =
          (2 * s.m - distIdx s.m (hash k % s.m) w) + 1 := by omega
      rw [e2]
      have hw1 : slotAt s1 w = slotAt s w := hslot1ne w hw_ne_j
      exact checkScan_stop_checked (by rw [hw1]; exact hwt) (by rw [hw1]; exact hwk)
        (by rw [hw1]; exact hwc) _
    refine ⟨s1, ?_, ?_, rfl⟩
    · rw [if_pos hk, insert_and_set_claimed hclaim']
      have hscan' : checkScan (writeSlot s j k v) k (start_index hash s k) (2 * s.m + 1) =
          some (false, s1) := hscan
      rw [hscan']
    · refine ⟨hs1len, hm, ?_, ?_, hperm1', ?_, ?_⟩
      · refine (forall_slots_iff hs1len (fun e => e.removed = false)).mpr ?_
        intro x hx
        by_cases hxj : x = j
        · subst hxj
          rw [hslot1j]
          exact hrem j (by omega)
        · rw [hslot1ne x hxj]
          exact hrem x (by exact hx)
      · intro x hx hxun
        by_cases hxj : x = j
        · subst hxj
          rw [hslot1jt] at hxun
          exact Bool.noConfusion hxun
        · rw [hslot1ne x hxj] at hxun ⊢
          exact freeClean x (by exact hx) hxun
      · -- path
        intro x hx hxt t ht
        by_cases hxj : x = j
        · subst hxj
          rw [hslot1jk] at ht ⊢
          have hdist : distIdx s1.m (hash k % s1.m) j = d := by
            have : distIdx s.m (hash k % s.m) j = d := by
              rw [hj_def]
              exact distIdx_addIdx hm hhome hdm
            exact this
          rw [hdist] at ht
          have hne : addIdx s.m (hash k % s.m) t ≠ j := hpos_ne_j t (by omega) (by omega)
          have hconv : addIdx s1.m (hash k % s1.m) t = addIdx s.m (hash k % s.m) t := rfl
          rw [hconv, hslot1ne _ hne]
          exact hdbefore t ht
        · have hxs : slotAt s1 x = slotAt s x := hslot1ne x hxj
          rw [hxs] at hxt ht ⊢
          have hp := path x (by exact hx) hxt t (by exact ht)
          exact hmono1 _ hp
      · -- winner
        intro k' hex1
        by_cases hkk : k' = k
        · subst hkk
          have hw1 : slotAt s1 w = slotAt s w := hslot1ne w hw_ne_j
          refine ⟨w, by exact hwm, by rw [hw1]; exact hwt, by rw [hw1]; exact hwk,
            by rw [hw1]; exact hwc, ?_⟩
          intro t ht
          have ht' : t < distIdx s.m (hash k' % s.m) w := ht
          have hne : addIdx s.m (hash k' % s.m) t ≠ j := hpos_ne_j t (by omega) (by omega)
          have hconv : addIdx s1.m (hash k' % s1.m) t = addIdx s.m (hash k' % s.m) t := rfl
          rw [hconv, hslot1ne _ hne]
          exact hwfirst t ht'
        · obtain ⟨x, hx, hxt, hxk⟩ := hex1
          have hx_ne_j : x ≠ j := by
            intro he
            rw [he, hslot1jk] at hxk
            exact hkk hxk.symm
          rw [hslot1ne x hx_ne_j] at hxt hxk
          obtain ⟨w', hw'm, hw't, hw'k, hw'c, hw'first⟩ :=
            winner k' ⟨x, by exact hx, hxt, hxk⟩
          have hw'_ne_j : w' ≠ j := by
            intro he
            rw [he, hdfree] at hw't
            exact Bool.noConfusion hw't
          have hw'1 : slotAt s1 w' = slotAt s w' := hslot1ne w' hw'_ne_j
          refine ⟨w', by exact hw'm, by rw [hw'1]; exact hw't, by rw [hw'1]; exact hw'k,
            by rw [hw'1]; exact hw'c, ?_⟩
          intro t ht
          have ht' : t < distIdx s.m (hash k' % s.m) w' := ht
          have hconv : addIdx s1.m (hash k' % s1.m) t = addIdx s.m (hash k' % s.m) t := rfl
          rw [hconv]
          by_cases hpj : addIdx s.m (hash k' % s.m) t = j
          · rw [hpj]
            intro hcon
            rw [hslot1jk] at hcon
            exact hkk hcon.2.symm
          · rw [hslot1ne _ hpj]
            exact hw'first t ht'
  · -- fresh key: the verification scan marks the claimed slot and succeeds
    have hnok : ∀ x, x < s.m →
        ¬((slotAt s x).taken = true ∧ (slotAt s x).key = k) := by
      intro x hx hxs
      exact hk (keys_perm.mem_iff.mp ((mem_takenKeys hl).mpr ⟨x, hx, hxs.1, hxs.2⟩))
    set s2 := setCheck s1 j with hs2_def
    have hs2m : s2.m = s.m := rfl
    have hj1len : j < s1.slots.length := by
      rw [hs1len, hs1m]
      exact hjm
    have hs2len : s2.slots.length = s2.m := by
      rw [hs2_def]
      simp [hs1len]
    have hslot2j : slotAt s2 j = { slotAt s1 j with check := true } :=
      slotAt_setCheck_self hj1len
    have hslot2ne : ∀ x, x ≠ j → slotAt s2 x = slotAt s x := by
      intro x hx
      rw [hs2_def, slotAt_setCheck_ne s1 hx, hslot1ne x hx]
    have hslot2jt : (slotAt s2 j).taken = true := by rw [hslot2j, hslot1j]
    have hslot2jk : (slotAt s2 j).key = k := by rw [hslot2j, hslot1j]
    have hslot2jc : (slotAt s2 j).check = true := by rw [hslot2j]
    have hcount1 : countTaken s1 = ks.length + 1 := by
      rw [← takenKeys_length, hperm1'.length_eq]
      simp
    have hfree1 : ∃ e ∈ s1.slots, e.taken = false := by
      apply exists_free_of_lt hs1len
      rw [hcount1, hs1m]
      omega
    obtain ⟨j₂, hj₂m, hj₂f⟩ := exists_untaken_idx hs1len hfree1
    obtain ⟨d₂, hd₂m, hd₂idx⟩ := exists_addIdx hm hhome (show j₂ < s.m from hj₂m)
    have hPex : ∃ t, (slotAt s1 (addIdx s.m (hash k % s.m) t)).taken = false :=
      ⟨d₂, by rw [hd₂idx]; exact hj₂f⟩
    have hu_spec : (slotAt s1 (addIdx s.m (hash k % s.m) (Nat.find hPex))).taken = false :=
      Nat.find_spec hPex
    have hu_min : ∀ t, t < Nat.find hPex →
        (slotAt s1 (addIdx s.m (hash k % s.m) t)).taken = true :=
      fun t ht => bool_eq_true_of_ne_false (Nat.find_min hPex ht)
    set u := Nat.find hPex with hu_def
    have hum : u < s.m := by
      have : u ≤ d₂ := Nat.find_le (by rw [hd₂idx]; exact hj₂f)
      omega
    have hu_gt_d : d < u := by
      rcases Nat.lt_or_ge d u with h | h
      · exact h
      · exfalso
        rcases Nat.lt_or_ge u d with h2 | h2
        · have htk : (slotAt s1 (addIdx s.m (hash k % s.m) u)).taken = true := by
            rw [hslot1ne _ (hpos_ne_j u (by omega) (by omega))]
            exact hdbefore u h2
          rw [hu_spec] at htk
          exact Bool.noConfusion htk
        · have hud : u = d := by omega
          have htk : (slotAt s1 (addIdx s.m (hash k % s.m) u)).taken = true := by
            rw [hud, ← hj_def]
            exact hslot1jt
          rw [hu_spec] at htk
          exact Bool.noConfusion htk
    have hscan : checkScan s1 k (hash k % s.m) (2 * s.m + 1) = some (true, s2) := by
      have hskipA : ∀ t, t < d →
          (slotAt s1 (addIdx s1.m (hash k % s.m) t)).taken = true ∧
          (slotAt s1 (addIdx s1.m (hash k % s.m) t)).key ≠ k := by
        intro t ht
        have hne : addIdx s.m (hash k % s.m) t ≠ j := hpos_ne_j t (by omega) (by omega)
        have hconv : addIdx s1.m (hash k % s.m) t = addIdx s.m (hash k % s.m) t := rfl
        rw [hconv, hslot1ne _ hne]
        refine ⟨hdbefore t ht, ?_⟩
        intro hkey
        exact hnok _ (addIdx_lt hm hhome t) ⟨hdbefore t ht, hkey⟩
      have e1 : 2 * s.m + 1 = d + ((2 * s.m + 1) - d) := by omega
      rw [e1, checkScan_skip d hskipA]
      have hconvd : addIdx s1.m (hash k % s.m) d = j := hj_def.symm
      rw [hconvd]
      have e2 : 2 * s.m + 1 - d = (2 * s.m - d) + 1 := by omega
      rw [e2]
      have hjc : (slotAt s1 j).check = false := by
        rw [hslot1j]
        exact freeClean j hjm hdfree
      rw [checkScan_step_set hslot1jt hslot1jk hjc]
      have hnext : next_index s1.m j = addIdx s.m (hash k % s.m) (d + 1) := by
        have h1 : addIdx s.m (hash k % s.m) (d + 1) =
            next_index s.m (addIdx s.m (hash k % s.m) d) := addIdx_succ_right hm hhome d
        rw [h1, ← hj_def]
        rfl
      rw [hnext]
      have hskipB : ∀ t, t < u - d - 1 →
          (slotAt s2 (addIdx s2.m (addIdx s.m (hash k % s.m) (d + 1)) t)).taken = true ∧
          (slotAt s2 (addIdx s2.m (addIdx s.m (hash k % s.m) (d + 1)) t)).key ≠ k := by
        intro t ht
        have hconv : addIdx s2.m (addIdx s.m (hash k % s.m) (d + 1)) t =
            addIdx s.m (hash k % s.m) (d + 1 + t) := (addIdx_add hm hhome (d + 1) t).symm
        rw [hconv]
        have hlt : d + 1 + t < u := by omega
        have hltm : d + 1 + t < s.m := by omega
        have hne : addIdx s.m (hash k % s.m) (d + 1 + t) ≠ j :=
          hpos_ne_j (d + 1 + t) (by omega) hltm
        rw [hslot2ne _ hne]
        have htk1 : (slotAt s1 (addIdx s.m (hash k % s.m) (d + 1 + t))).taken = true :=
          hu_min (d + 1 + t) hlt
        rw [hslot1ne _ hne] at htk1
        refine ⟨htk1, ?_⟩
        intro hkey
        exact hnok _ (addIdx_lt hm hhome (d + 1 + t)) ⟨htk1, hkey⟩
      have e3 : 2 * s.m - d = (u - d - 1) + ((2 * s.m - d) - (u - d - 1)) := by omega
      rw [e3, checkScan_skip (u - d - 1) hskipB]
      have hposu : addIdx s2.m (addIdx s.m (hash k % s.m) (d + 1)) (u - d - 1) =
          addIdx s.m (hash k % s.m) u := by
        have h1 : addIdx s.m (addIdx s.m (hash k % s.m) (d + 1)) (u - d - 1) =
            addIdx s.m (hash k % s.m) (d + 1 + (u - d - 1)) :=
          (addIdx_add hm hhome (d + 1) (u - d - 1)).symm
        have e5 : d + 1 + (u - d - 1) = u := by omega
        rw [e5] at h1
        exact h1
      rw [hposu]
      have e4 : (2 * s.m - d) - (u - d - 1) = ((2 * s.m - d) - (u - d - 1) - 1) + 1 := by
        omega
      rw [e4]
      apply checkScan_stop_untaken
      have hne : addIdx s.m (hash k % s.m) u ≠ j := hpos_ne_j u (by omega) (by omega)
      have h2 : slotAt s2 (addIdx s.m (hash k % s.m) u) =
          slotAt s1 (addIdx s.m (hash k % s.m) u) := by
        rw [hs2_def]
        exact slotAt_setCheck_ne s1 hne
      rw [h2]
      exact hu_spec
    refine ⟨s2, ?_, ?_, rfl⟩
    · rw [if_neg hk, insert_and_set_claimed hclaim']
      have hscan' : checkScan (writeSlot s j k v) k (start_index hash s k) (2 * s.m + 1) =
          some (true, s2) := hscan
      rw [hscan']
    · have hperm2 : List.Perm (takenKeys s2) (k :: ks) := by
        have heq : takenKeys s2 = takenKeys s1 := by
          rw [hs2_def]
          apply filterMap_set_eq
          intro hj'
          have hgj : s1.slots[j] = slotAt s1 j :=
            (List.getD_eq_getElem s1.slots default hj').symm
          rw [hgj, hslot1j]
        rw [heq]
        exact hperm1'
      refine ⟨hs2len, hm, ?_, ?_, hperm2, ?_, ?_⟩
      · refine (forall_slots_iff hs2len (fun e => e.removed = false)).mpr ?_
        intro x hx
        by_cases hxj : x = j
        · subst hxj
          rw [hslot2j, hslot1j]
          exact hrem j (by omega)
        · rw [hslot2ne x hxj]
          exact hrem x (by exact hx)
      · intro x hx hxun
        by_cases hxj : x = j
        · subst hxj
          rw [hslot2jt] at hxun
          exact Bool.noConfusion hxun
        · rw [hslot2ne x hxj] at hxun ⊢
          exact freeClean x (by exact hx) hxun
      · -- path
        intro x hx hxt t ht
        by_cases hxj : x = j
        · subst hxj
          rw [hslot2jk] at ht ⊢
          have hdist : distIdx s2.m (hash k % s2.m) j = d := by
            have h0 : distIdx s.m (hash k % s.m) j = d := by
              rw [hj_def]
              exact distIdx_addIdx hm hhome hdm
            exact h0
          rw [hdist] at ht
          have hne : addIdx s.m (hash k % s.m) t ≠ j := hpos_ne_j t (by omega) (by omega)
          have hconv : addIdx s2.m (hash k % s2.m) t = addIdx s.m (hash k % s.m) t := rfl
          rw [hconv, hslot2ne _ hne]
          exact hdbefore t ht
        · have hxs : slotAt s2 x = slotAt s x := hslot2ne x hxj
          rw [hxs] at hxt ht ⊢
          have hp := path x (by exact hx) hxt t (by exact ht)
          by_cases hpj : addIdx s.m (hash (slotAt s x).key % s.m) t = j
          · have hconv : addIdx s2.m (hash (slotAt s x).key % s2.m) t =
                addIdx s.m (hash (slotAt s x).key % s.m) t := rfl
            rw [hconv, hpj]
            exact hslot2jt
          · have hconv : addIdx s2.m (hash (slotAt s x).key % s2.m) t =
                addIdx s.m (hash (slotAt s x).key % s.m) t := rfl
            rw [hconv, hslot2ne _ hpj]
            exact hp
      · -- winner
        intro k' hex1
        by_cases hkk : k' = k
        · subst hkk
          refine ⟨j, by rw [hs2m]; exact hjm, hslot2jt, hslot2jk, hslot2jc, ?_⟩
          intro t ht
          have hdist : distIdx s2.m (hash k' % s2.m) j = d := by
            have h0 : distIdx s.m (hash k' % s.m) j = d := by
              rw [hj_def]
              exact distIdx_addIdx hm hhome hdm
            exact h0
          rw [hdist] at ht
          have hne : addIdx s.m (hash k' % s.m) t ≠ j := hpos_ne_j t (by omega) (by omega)
          have hconv : addIdx s2.m (hash k' % s2.m) t = addIdx s.m (hash k' % s.m) t := rfl
          rw [hconv, hslot2ne _ hne]
          intro hcon
          exact hnok _ (addIdx_lt hm hhome t) hcon
        · obtain ⟨x, hx, hxt, hxk⟩ := hex1
          have hx_ne_j : x ≠ j := by
            intro he
            rw [he, hslot2jk] at hxk
            exact hkk hxk.symm
          rw [hslot2ne x hx_ne_j] at hxt hxk
          obtain ⟨w', hw'm, hw't, hw'k, hw'c, hw'first⟩ :=
            winner k' ⟨x, by exact hx, hxt, hxk⟩
          have hw'_ne_j : w' ≠ j := by
            intro he
            rw [he, hdfree] at hw't
            exact Bool.noConfusion hw't
          have hw'2 : slotAt s2 w' = slotAt s w' := hslot2ne w' hw'_ne_j
          refine ⟨w', by exact hw'm, by rw [hw'2]; exact hw't, by rw [hw'2]; exact hw'k,
            by rw [hw'2]; exact hw'c, ?_⟩
          intro t ht
          have ht' : t < distIdx s.m (hash k' % s.m) w' := ht
          have hconv : addIdx s2.m (hash k' % s2.m) t = addIdx s.m (hash k' % s.m) t := rfl
          rw [hconv]
          by_cases hpj : addIdx s.m (hash k' % s.m) t = j
          · rw [hpj]
            intro hcon
            rw [hslot2jk] at hcon
            exact hkk hcon.2.symm
          · rw [hslot2ne _ hpj]
            exact hw'first t ht'

/-- Sequential run of `insert_and_set` calls under the invariant: while the
total number of calls stays below the slot count, every call terminates,
the first call on each key succeeds, every later call on an already-seen
key loses the race, and no call reports a capacity failure. -/
theorem runInserts_spec (hash : K → Nat) :
    ∀ (calls : List (K × V)) (s : MapState K V) (seen : List K),
      InsInv hash s seen → seen.length + calls.length < s.m →
      ∃ s', runInserts hash s calls = some (expectedOuts seen calls, s') ∧
        InsInv hash s' (calls.reverse.map Prod.fst ++ seen) ∧ s'.m = s.m := by
  intro calls
  induction calls with
  | nil =>
    intro s seen inv _
    exact ⟨s, rfl, by simpa using inv, rfl⟩
  | cons c rest ih =>
    intro s seen inv hroom
    obtain ⟨k, v⟩ := c
    obtain ⟨s', hins, inv', hm'⟩ := insert_step hash k v inv (by simp at hroom; omega)
    obtain ⟨s'', hrun, inv'', hm''⟩ := ih s' (k :: seen) inv' (by simp at hroom ⊢; omega)
    refine ⟨s'', ?_, ?_, by rw [hm'', hm']⟩
    · show (match insert_and_set hash s k v with
        | none => none
        | some (o, s') =>
          match runInserts hash s' rest with
          | none => none
          | some (os, s'') => some (o :: os, s'')) =
        some (expectedOuts seen ((k, v) :: rest), s'')
      rw [hins]
      dsimp only
      rw [hrun]
      rfl
    · have he : rest.reverse.map Prod.fst ++ (k :: seen) =
          ((k, v) :: rest).reverse.map Prod.fst ++ seen := by
        simp
      rw [← he]
      exact inv''

/-- Position `i` of the expected outcomes: `LostRace` exactly when the
call's key was already seen, either in the initial seen-list or in an
earlier call. -/
theorem expectedOuts_getElem :
    ∀ (calls : List (K × V)) (seen : List K) (i : Nat) (h : i < calls.length),
      (expectedOuts seen calls)[i]? =
        some (if (calls[i]).1 ∈ seen ∨ (calls[i]).1 ∈ (calls.take i).map Prod.fst
          then InsertOutcome.LostRace else InsertOutcome.Success) := by
  intro calls
  induction calls with
  | nil => intro seen i h; simp at h
  | cons c rest ih =>
    intro seen i h
    obtain ⟨k, v⟩ := c
    cases i with
    | zero =>
      show (expectedOuts seen ((k, v) :: rest))[0]? = _
      rw [expectedOuts, List.getElem?_cons_zero]
      simp only [List.getElem_cons_zero, List.take_zero, List.map_nil, List.not_mem_nil,
        or_false]
    | succ i =>
      have hi : i < rest.length := by simpa using h
      show (expectedOuts seen ((k, v) :: rest))[i + 1]? = _
      rw [expectedOuts]
      rw [List.getElem?_cons_succ, ih (k :: seen) i hi]
      congr 1
      have hmem : (rest[i]).1 ∈ k :: seen ∨ (rest[i]).1 ∈ (rest.take i).map Prod.fst ↔
          (rest[i]).1 ∈ seen ∨ (rest[i]).1 ∈ (((k, v) :: rest).take (i + 1)).map Prod.fst := by
        simp [List.take_succ_cons]
        tauto
      by_cases hc : (rest[i]).1 ∈ k :: seen ∨ (rest[i]).1 ∈ (rest.take i).map Prod.fst
      · rw [if_pos hc, if_pos (by simpa using hmem.mp hc)]
      · rw [if_neg hc, if_neg (by intro hcon; exact hc (hmem.mpr (by simpa using hcon)))]

theorem expectedOuts_no_capacity :
    ∀ (calls : List (K × V)) (seen : List K),
      InsertOutcome.CapacityExceeded ∉ expectedOuts seen calls := by
  intro calls
  induction calls with
  | nil => intro seen; simp [expectedOuts]
  | cons c rest ih =>
    intro seen
    obtain ⟨k, v⟩ := c
    rw [expectedOuts]
    intro hmem
    rcases List.mem_cons.mp hmem with h | h
    · by_cases hks : k ∈ seen
      · rw [if_pos hks] at h
        exact InsertOutcome.noConfusion h
      · rw [if_neg hks] at h
        exact InsertOutcome.noConfusion h
    · exact ih (k :: seen) h


/-- Structure of a losing insert under the invariant: it claims the first
free slot of the probe chain, writes the key/value pair there, and the
verification scan stops at the present winner's `check` flag, so the
returned state is exactly the old state with the one written slot. -/
theorem insert_lost_structure (hash : K → Nat) {s : MapState K V} {ks : List K}
    (k : K) (v : V) (inv : InsInv hash s ks) (hroom : ks.length + 1 < s.m)
    (hk : k ∈ ks) :
    ∃ j, j < s.m ∧ (slotAt s j).taken = false ∧
      insert_and_set hash s k v = some (.LostRace, writeSlot s j k v) := by
  obtain ⟨hl, hm, removedF, freeClean, keys_perm, path, winner⟩ := inv
  have hhome : hash k % s.m < s.m := Nat.mod_lt _ hm
  have hcount : countTaken s = ks.length := by
    rw [← takenKeys_length]
    exact keys_perm.length_eq
  have hfree_ex : ∃ e ∈ s.slots, e.taken = false := exists_free_of_lt hl (by omega)
  obtain ⟨d, hdm, hdfree, hdbefore, hclaim⟩ := claimLoop_reaches hl hm hhome hfree_ex
  set j := addIdx s.m (hash k % s.m) d with hj_def
  have hjm : j < s.m := addIdx_lt hm hhome d
  have hjlen : j < s.slots.length := by omega
  set s1 := writeSlot s j k v with hs1_def
  have hslot1ne : ∀ x, x ≠ j → slotAt s1 x = slotAt s x := fun x hx =>
    slotAt_writeSlot_ne s hx k v
  have hpos_ne_j : ∀ t, t ≠ d → t < s.m → addIdx s.m (hash k % s.m) t ≠ j := by
    intro t htd htm he
    rw [hj_def] at he
    exact htd (addIdx_inj hm hhome htm hdm he)
  have hclaim' : claimLoop s (start_index hash s k) (start_index hash s k) s.m = some j :=
    hclaim
  have hktk : k ∈ takenKeys s := keys_perm.mem_iff.mpr hk
  obtain ⟨w, hwm, hwt, hwk, hwc, hwfirst⟩ := winner k ((mem_takenKeys hl).mp hktk)
  have hdwm : distIdx s.m (hash k % s.m) w < s.m := distIdx_lt hm hwm
  have haddw : addIdx s.m (hash k % s.m) (distIdx s.m (hash k % s.m) w) = w :=
    addIdx_distIdx hm hhome hwm
  have hpathw := path w hwm hwt
  rw [hwk] at hpathw
  have hw_ne_j : w ≠ j := by
    intro he
    rw [he] at hwt
    rw [hdfree] at hwt
    exact Bool.noConfusion hwt
  have hdw_ne_d : distIdx s.m (hash k % s.m) w ≠ d := by
    intro he
    rw [he, ← hj_def] at haddw
    exact hw_ne_j haddw.symm
  have hdw_lt_d : distIdx s.m (hash k % s.m) w < d := by
    rcases Nat.lt_or_ge (distIdx s.m (hash k % s.m) w) d with h | h
    · exact h
    · exfalso
      have hlt : d < distIdx s.m (hash k % s.m) w := by omega
      have := hpathw d hlt
      rw [← hj_def, hdfree] at this
      exact Bool.noConfusion this
  have hscan : checkScan s1 k (hash k % s.m) (2 * s.m + 1) = some (false, s1) := by
    have hskip : ∀ t, t < distIdx s.m (hash k % s.m) w →
        (slotAt s1 (addIdx s1.m (hash k % s.m) t)).taken = true ∧
        (slotAt s1 (addIdx s1.m (hash k % s.m) t)).key ≠ k := by
      intro t ht
      have hne : addIdx s.m (hash k % s.m) t ≠ j := hpos_ne_j t (by omega) (by omega)
      have hconv : addIdx s1.m (hash k % s.m) t = addIdx s.m (hash k % s.m) t := rfl
      rw [hconv, hslot1ne _ hne]
      refine ⟨hpathw t (by omega), ?_⟩
      intro hkey
      exact hwfirst t ht ⟨hpathw t (by omega), hkey⟩
    have e1 : 2 * s.m + 1 = distIdx s.m (hash k % s.m) w +
        (2 * s.m + 1 - distIdx s.m (hash k % s.m) w) := by omega
    rw [e1, checkScan_skip (distIdx s.m (hash k % s.m) w) hskip]
    have hconvw : addIdx s1.m (hash k % s.m) (distIdx s.m (hash k % s.m) w) = w := haddw
    rw [hconvw]
    have e2 : 2 * s.m + 1 - distIdx s.m (hash k % s.m) w =
        (2 * s.m - distIdx s.m (hash k % s.m) w) + 1 := by omega
    rw [e2]
    have hw1 : slotAt s1 w = slotAt s w := hslot1ne w hw_ne_j
    exact checkScan_stop_checked (by rw [hw1]; exact hwt) (by rw [hw1]; exact hwk)
      (by rw [hw1]; exact hwc) _
  refine ⟨j, hjm, hdfree, ?_⟩
  rw [insert_and_set_claimed hclaim']
  have hscan' : checkScan (writeSlot s j k v) k (start_index hash s k) (2 * s.m + 1) =
      some (false, s1) := hscan
  rw [hscan']

/-- After a losing insert on an invariant state (the loser's written slot
being any slot that was free before), `get_value` on the same key scans the
fully-taken probe prefix — whose slots all miss the key, the winner being
the first key match — and returns the winner's stored value, which differs
from the excluded one whenever every stored value does. -/
theorem get_value_after_lost (hash : K → Nat) {s : MapState K V} {ks : List K}
    (k : K) (v : V) (inv : InsInv hash s ks) (hk : k ∈ ks) (j : Nat)
    (hfree : (slotAt s j).taken = false)
    (hvals : ∀ x, x < s.m → (slotAt s x).value ≠ v) :
    ∃ w, w < s.m ∧ (slotAt s w).key = k ∧ (slotAt s w).value ≠ v ∧
      get_value hash (writeSlot s j k v) k v = some (some ((slotAt s w).value)) := by
  obtain ⟨hl, hm, removedF, freeClean, keys_perm, path, winner⟩ := inv
  have hhome : hash k % s.m < s.m := Nat.mod_lt _ hm
  have hktk : k ∈ takenKeys s := keys_perm.mem_iff.mpr hk
  obtain ⟨w, hwm, hwt, hwk, hwc, hwfirst⟩ := winner k ((mem_takenKeys hl).mp hktk)
  have hpathw := path w hwm hwt
  rw [hwk] at hpathw
  have hdwm : distIdx s.m (hash k % s.m) w < s.m := distIdx_lt hm hwm
  have haddw : addIdx s.m (hash k % s.m) (distIdx s.m (hash k % s.m) w) = w :=
    addIdx_distIdx hm hhome hwm
  have hne_j : ∀ t, t ≤ distIdx s.m (hash k % s.m) w →
      addIdx s.m (hash k % s.m) t ≠ j := by
    intro t ht he
    rcases Nat.lt_or_ge t (distIdx s.m (hash k % s.m) w) with h | h
    · have := hpathw t h
      rw [he, hfree] at this
      exact Bool.noConfusion this
    · have ht' : t = distIdx s.m (hash k % s.m) w := by omega
      rw [ht', haddw] at he
      rw [he, hfree] at hwt
      exact Bool.noConfusion hwt
  set s1 := writeSlot s j k v with hs1_def
  have hslot1ne : ∀ x, x ≠ j → slotAt s1 x = slotAt s x := fun x hx =>
    slotAt_writeSlot_ne s hx k v
  have hs1m : s1.m = s.m := rfl
  have hvw : (slotAt s w).value ≠ v := hvals w hwm
  refine ⟨w, hwm, hwk, hvw, ?_⟩
  unfold get_value
  have hstart : start_index hash s1 k = hash k % s.m := rfl
  rw [hstart]
  have hsplit : s1.m = distIdx s.m (hash k % s.m) w +
      (s.m - distIdx s.m (hash k % s.m) w) := by rw [hs1m]; omega
  rw [hsplit]
  have hskip : ∀ t, t < distIdx s.m (hash k % s.m) w →
      (slotAt s1 (addIdx s1.m (hash k % s.m) t)).taken = true ∧
      ¬((slotAt s1 (addIdx s1.m (hash k % s.m) t)).key = k ∧
        (slotAt s1 (addIdx s1.m (hash k % s.m) t)).value ≠ v) := by
    intro t ht
    have hne : addIdx s.m (hash k % s.m) t ≠ j := hne_j t (by omega)
    have hconv : addIdx s1.m (hash k % s.m) t = addIdx s.m (hash k % s.m) t := rfl
    rw [hconv, hslot1ne _ hne]
    refine ⟨hpathw t ht, ?_⟩
    rintro ⟨hkey, -⟩
    exact hwfirst t ht ⟨hpathw t ht, hkey⟩
  rw [getLoop_skip (distIdx s.m (hash k % s.m) w) hskip]
  have hconvw : addIdx s1.m (hash k % s.m) (distIdx s.m (hash k % s.m) w) = w := haddw
  rw [hconvw]
  obtain ⟨f, hf⟩ : ∃ f, s.m - distIdx s.m (hash k % s.m) w = f + 1 :=
    ⟨s.m - distIdx s.m (hash k % s.m) w - 1, by omega⟩
  rw [hf]
  have hw_ne_j : w ≠ j := by
    have h := hne_j (distIdx s.m (hash k % s.m) w) (le_refl _)
    rw [haddw] at h
    exact h
  have hw1 : slotAt s1 w = slotAt s w := hslot1ne w hw_ne_j
  rw [getLoop_hit (by rw [hw1]; exact hwt) (by rw [hw1]; exact hwk)
    (by rw [hw1]; exact hvw) f, hw1]

end InsertStep

section Scenarios

variable {K V : Type} [DecidableEq K] [DecidableEq V] [Inhabited K] [Inhabited V]

theorem mkMap_m (size : Nat) : (mkMap size : MapState K V).m = 100 + 3 * size / 2 := rfl

theorem mkMap_m_pos (size : Nat) : 0 < (mkMap size : MapState K V).m := by
  rw [mkMap_m]
  omega

theorem mkMap_len (size : Nat) :
    (mkMap size : MapState K V).slots.length = (mkMap size : MapState K V).m := by
  simp [mkMap]

theorem mkMap_slotAt (size : Nat) (j : Nat) :
    slotAt (mkMap size : MapState K V) j = default := by
  unfold slotAt mkMap
  by_cases hj : j < 100 + 3 * size / 2
  · rw [List.getD_eq_getElem _ default (by simpa using hj)]
    simp [List.getElem_replicate]
  · rw [List.getD_eq_default]
    simpa using hj

/-- The first insert on a fresh table claims exactly the home slot, marks
its own `check` flag, and succeeds. -/
theorem insert_empty (hash : K → Nat) (size : Nat) (k : K) (v : V) :
    insert_and_set hash (mkMap size : MapState K V) k v =
      some (.Success,
        setCheck (writeSlot (mkMap size : MapState K V)
            (start_index hash (mkMap size : MapState K V) k) k v)
          (start_index hash (mkMap size : MapState K V) k)) := by
  have hm : 0 < (mkMap size : MapState K V).m := mkMap_m_pos size
  have hm2 : 2 ≤ (mkMap size : MapState K V).m := by rw [mkMap_m]; omega
  have hl : (mkMap size : MapState K V).slots.length = (mkMap size : MapState K V).m :=
    mkMap_len size
  set s₀ : MapState K V := mkMap size with hs₀
  set home := start_index hash s₀ k with hhome_def
  have hhome : home < s₀.m := Nat.mod_lt _ hm
  have hun : ∀ j, (slotAt s₀ j).taken = false := by
    intro j
    rw [hs₀, mkMap_slotAt]
    rfl
  have hclaim : claimLoop s₀ home home s₀.m = some home := by
    obtain ⟨f, hf⟩ : ∃ f, s₀.m = f + 1 := ⟨s₀.m - 1, by omega⟩
    rw [hf, claimLoop_free (hun home)]
  rw [insert_and_set_claimed hclaim]
  set s1 := writeSlot s₀ home k v with hs1
  have hlen1 : home < s₀.slots.length := by omega
  have hslot1 : slotAt s1 home = { slotAt s₀ home with taken := true, key := k, value := v } :=
    slotAt_writeSlot_self hlen1 k v
  have hjt : (slotAt s1 home).taken = true := by rw [hslot1]
  have hjk : (slotAt s1 home).key = k := by rw [hslot1]
  have hjc : (slotAt s1 home).check = false := by
    rw [hslot1]
    show (slotAt s₀ home).check = false
    rw [hs₀, mkMap_slotAt]
    rfl
  have hscan : checkScan s1 k home (2 * s₀.m + 1) = some (true, setCheck s1 home) := by
    have e1 : 2 * s₀.m + 1 = (2 * s₀.m) + 1 := rfl
    rw [e1, checkScan_step_set hjt hjk hjc]
    have hnext : next_index s1.m home = addIdx s₀.m home 1 := rfl
    rw [hnext]
    have hne : addIdx s₀.m home 1 ≠ home := addIdx_ne_start hhome (by omega) (by omega)
    have hun2 : (slotAt (setCheck s1 home) (addIdx s₀.m home 1)).taken = false := by
      rw [(slotAt_setCheck_fields s1 home _).1, hs1, slotAt_writeSlot_ne s₀ hne]
      exact hun _
    obtain ⟨f, hf⟩ : ∃ f, 2 * s₀.m = f + 1 := ⟨2 * s₀.m - 1, by omega⟩
    rw [hf, checkScan_stop_untaken hun2]
  rw [hscan]

/-- Description of the state after the first insert: the home slot holds
the pair with all three flags as expected, and every other slot is still
the default. -/
theorem insert_empty_state (hash : K → Nat) (size : Nat) (k : K) (v : V) :
    (∀ x, x ≠ start_index hash (mkMap size : MapState K V) k →
      slotAt (setCheck (writeSlot (mkMap size : MapState K V)
          (start_index hash (mkMap size : MapState K V) k) k v)
        (start_index hash (mkMap size : MapState K V) k)) x =
        (default : MEntry K V)) ∧
    slotAt (setCheck (writeSlot (mkMap size : MapState K V)
        (start_index hash (mkMap size : MapState K V) k) k v)
      (start_index hash (mkMap size : MapState K V) k))
      (start_index hash (mkMap size : MapState K V) k) =
      ⟨true, true, false, k, v⟩ := by
  have hm : 0 < (mkMap size : MapState K V).m := mkMap_m_pos size
  have hl : (mkMap size : MapState K V).slots.length = (mkMap size : MapState K V).m :=
    mkMap_len size
  set s₀ : MapState K V := mkMap size with hs₀
  set home := start_index hash s₀ k with hhome_def
  have hhome : home < s₀.m := Nat.mod_lt _ hm
  have hlen1 : home < s₀.slots.length := by omega
  constructor
  · intro x hx
    rw [slotAt_setCheck_ne _ hx, slotAt_writeSlot_ne s₀ hx, hs₀, mkMap_slotAt]
  · have hlen1' : home < (writeSlot s₀ home k v).slots.length := by
      simpa using hlen1
    rw [slotAt_setCheck_self hlen1', slotAt_writeSlot_self hlen1, hs₀, mkMap_slotAt]
    rfl

/-- `remove` on a state whose home slot for `k` is a live matching entry:
it tombstones exactly that slot and reports `true`. -/
theorem remove_hits_home (hash : K → Nat) {s : MapState K V} {k : K}
    (hm : 0 < s.m)
    (h0t : (slotAt s (start_index hash s k)).taken = true)
    (h0r : (slotAt s (start_index hash s k)).removed = false)
    (h0k : (slotAt s (start_index hash s k)).key = k) :
    remove hash s k = some (true, setRemoved s (start_index hash s k)) := by
  unfold remove
  obtain ⟨f, hf⟩ : ∃ f, s.m = f + 1 := ⟨s.m - 1, by omega⟩
  rw [hf, removeLoop_hit h0t h0r h0k]

/-- `remove` on a state whose home slot does not stop the scan (for
example a tombstoned match) and whose next slot is unclaimed: the scan
passes the home slot, reaches the unclaimed slot and reports `false`
without modifying anything. -/
theorem remove_misses (hash : K → Nat) {s : MapState K V} {k : K}
    (hm2 : 2 ≤ s.m)
    (h0t : (slotAt s (start_index hash s k)).taken = true)
    (h0skip : ¬((slotAt s (start_index hash s k)).removed = false ∧
      (slotAt s (start_index hash s k)).key = k))
    (h1 : (slotAt s (addIdx s.m (start_index hash s k) 1)).taken = false) :
    remove hash s k = some (false, s) := by
  unfold remove
  obtain ⟨f, hf⟩ : ∃ f, s.m = f + 2 := ⟨s.m - 2, by omega⟩
  rw [hf]
  show removeLoop s k (start_index hash s k) ((f + 1) + 1) = some (false, s)
  rw [removeLoop_skip_one h0t h0skip]
  have hconv : next_index s.m (start_index hash s k) =
      addIdx s.m (start_index hash s k) 1 := rfl
  rw [hconv, removeLoop_stop_untaken h1]

/-- `get_value` on a state whose home slot for `k` holds `k` with a value
different from the excluded one: it returns that value (the `removed` flag
plays no part). -/
theorem get_value_hits_home (hash : K → Nat) {s : MapState K V} {k : K} {v : V}
    (hm : 0 < s.m)
    (h0t : (slotAt s (start_index hash s k)).taken = true)
    (h0k : (slotAt s (start_index hash s k)).key = k)
    (h0v : (slotAt s (start_index hash s k)).value ≠ v) :
    get_value hash s k v = some (some (slotAt s (start_index hash s k)).value) := by
  unfold get_value
  obtain ⟨f, hf⟩ : ∃ f, s.m = f + 1 := ⟨s.m - 1, by omega⟩
  rw [hf, getLoop_hit h0t h0k h0v]

/-- A second insert of an already-won key: the claiming loop skips the
winner's home slot, claims the next (free) slot, writes the pair there,
and the verification scan stops at the winner's set `check` flag,
reporting a lost race. -/
theorem insert_lost_on_winner (hash : K → Nat) {s : MapState K V} {k : K} (v₂ : V)
    (hl : s.slots.length = s.m) (hm2 : 2 ≤ s.m)
    (h0t : (slotAt s (start_index hash s k)).taken = true)
    (h0k : (slotAt s (start_index hash s k)).key = k)
    (h0c : (slotAt s (start_index hash s k)).check = true)
    (h1 : (slotAt s (addIdx s.m (start_index hash s k) 1)).taken = false) :
    insert_and_set hash s k v₂ =
      some (.LostRace, writeSlot s (addIdx s.m (start_index hash s k) 1) k v₂) := by
  have hm : 0 < s.m := by omega
  have hhome : start_index hash s k < s.m := Nat.mod_lt _ hm
  have hclaim : claimLoop s (start_index hash s k) (start_index hash s k) s.m =
      some (addIdx s.m (start_index hash s k) 1) := by
    obtain ⟨f, hf⟩ : ∃ f, s.m = 1 + (f + 1) := ⟨s.m - 2, by omega⟩
    have h2 : claimLoop s (start_index hash s k) (start_index hash s k) s.m =
        claimLoop s (start_index hash s k) (start_index hash s k) (1 + (f + 1)) := by
      rw [← hf]
    rw [h2]
    rw [claimLoop_skip 1 (fun t ht => by
        have ht0 : t = 0 := by omega
        subst ht0
        exact h0t)
      (fun t ht0 htd => by
        have ht1 : t = 1 := by omega
        subst ht1
        exact addIdx_ne_start hhome (by omega) (by omega))]
    rw [claimLoop_free h1]
  rw [insert_and_set_claimed hclaim]
  set j₂ := addIdx s.m (start_index hash s k) 1 with hj₂
  have hj₂ne : start_index hash s k ≠ j₂ :=
    fun he => addIdx_ne_start hhome (by omega) (by omega) he.symm
  have hs' : slotAt (writeSlot s j₂ k v₂) (start_index hash s k) =
      slotAt s (start_index hash s k) := slotAt_writeSlot_ne s hj₂ne k v₂
  have hscan : checkScan (writeSlot s j₂ k v₂) k (start_index hash s k) (2 * s.m + 1) =
      some (false, writeSlot s j₂ k v₂) := by
    obtain ⟨f, hf⟩ : ∃ f, 2 * s.m + 1 = f + 1 := ⟨2 * s.m, rfl⟩
    rw [hf]
    exact checkScan_stop_checked (by rw [hs']; exact h0t) (by rw [hs']; exact h0k)
      (by rw [hs']; exact h0c) f
  rw [hscan]

/-- `getLoop` only reads the `taken`, `key` and `value` fields of slots:
two states agreeing on those (and on `m`) give identical scans. -/
theorem getLoop_eq_of_fields (s' s : MapState K V) {k : K} {v : V} (hm : s'.m = s.m)
    (h : ∀ x, (slotAt s' x).taken = (slotAt s x).taken ∧
      (slotAt s' x).key = (slotAt s x).key ∧ (slotAt s' x).value = (slotAt s x).value) :
    ∀ fuel i, getLoop s' k v i fuel = getLoop s k v i fuel := by
  intro fuel
  induction fuel with
  | zero => intro i; rfl
  | succ fuel ih =>
    intro i
    rw [getLoop_succ, getLoop_succ, (h i).1, (h i).2.1, (h i).2.2, hm,
      ih (next_index s.m i)]

/-- `remove` stops at the first claimed, non-removed, matching slot of the
probe chain (all earlier chain slots being claimed non-stoppers) and
tombstones exactly it. -/
theorem remove_first_match (hash : K → Nat) {s : MapState K V} {k : K}
    (hm : 0 < s.m) (t : Nat) (ht : t < s.m)
    (hbefore : ∀ t', t' < t → (slotAt s (addIdx s.m (start_index hash s k) t')).taken = true ∧
      ¬((slotAt s (addIdx s.m (start_index hash s k) t')).removed = false ∧
        (slotAt s (addIdx s.m (start_index hash s k) t')).key = k))
    (h1 : (slotAt s (addIdx s.m (start_index hash s k) t)).taken = true)
    (h2 : (slotAt s (addIdx s.m (start_index hash s k) t)).removed = false)
    (h3 : (slotAt s (addIdx s.m (start_index hash s k) t)).key = k) :
    remove hash s k = some (true, setRemoved s (addIdx s.m (start_index hash s k) t)) := by
  unfold remove
  obtain ⟨f, hf⟩ : ∃ f, s.m - t = f + 1 := ⟨s.m - t - 1, by omega⟩
  have hsplit : removeLoop s k (start_index hash s k) s.m =
      removeLoop s k (start_index hash s k) (t + (f + 1)) := by
    congr 1
    omega
  rw [hsplit, removeLoop_skip t hbefore, removeLoop_hit h1 h2 h3]

/-- `remove` reaches an unclaimed slot with no match on the way: it
reports `false` and leaves the state unchanged. -/
theorem remove_unclaimed_stop (hash : K → Nat) {s : MapState K V} {k : K}
    (hm : 0 < s.m) (t : Nat) (ht : t < s.m)
    (hbefore : ∀ t', t' < t → (slotAt s (addIdx s.m (start_index hash s k) t')).taken = true ∧
      ¬((slotAt s (addIdx s.m (start_index hash s k) t')).removed = false ∧
        (slotAt s (addIdx s.m (start_index hash s k) t')).key = k))
    (h1 : (slotAt s (addIdx s.m (start_index hash s k) t)).taken = false) :
    remove hash s k = some (false, s) := by
  unfold remove
  obtain ⟨f, hf⟩ : ∃ f, s.m - t = f + 1 := ⟨s.m - t - 1, by omega⟩
  have hsplit : removeLoop s k (start_index hash s k) s.m =
      removeLoop s k (start_index hash s k) (t + (f + 1)) := by
    congr 1
    omega
  rw [hsplit, removeLoop_skip t hbefore, removeLoop_stop_untaken h1]

end Scenarios

end CHM

section ClaimTheorems

open CHM

/-- Claim C7: `get_value(k, exclude)` scans `k`'s probe chain while slots
are claimed and returns the value of the first slot whose key equals `k`
and whose stored value differs from `exclude`, never consulting the
`removed` flag: tombstoning any slot of any state leaves every `get_value`
result unchanged, and concretely, after `insert_and_set(k, v)` on a fresh
table followed by a successful `remove(k)`, a later `get_value(k, v₂)`
with `v₂ ≠ v` still returns the tombstoned entry's value `v`. -/
theorem get_value_ignores_removed_flag {K V : Type} [DecidableEq K] [DecidableEq V]
    [Inhabited K] [Inhabited V] (hash : K → Nat) (size : Nat) (k : K) (v v₂ : V)
    (hne : v₂ ≠ v) (j : Nat) (s : MapState K V) :
    get_value hash (setRemoved s j) k v₂ = get_value hash s k v₂ ∧
    insert_and_set hash (mkMap size : MapState K V) k v =
      some (.Success,
        setCheck (writeSlot (mkMap size : MapState K V)
            (start_index hash (mkMap size : MapState K V) k) k v)
          (start_index hash (mkMap size : MapState K V) k)) ∧
    (∀ s₁ : MapState K V,
      s₁ = setCheck (writeSlot (mkMap size : MapState K V)
          (start_index hash (mkMap size : MapState K V) k) k v)
        (start_index hash (mkMap size : MapState K V) k) →
      remove hash s₁ k = some (true, setRemoved s₁ (start_index hash s₁ k)) ∧
      get_value hash (setRemoved s₁ (start_index hash s₁ k)) k v₂ = some (some v)) := by
  refine ⟨?_, insert_empty hash size k v, ?_⟩
  · show getLoop (setRemoved s j) k v₂ (start_index hash (setRemoved s j) k)
        (setRemoved s j).m = getLoop s k v₂ (start_index hash s k) s.m
    have h1 : start_index hash (setRemoved s j) k = start_index hash s k := rfl
    have h2 : (setRemoved s j).m = s.m := rfl
    rw [h1, h2]
    exact getLoop_eq_of_fields (setRemoved s j) s rfl (fun x => by
      obtain ⟨a, b, _, c⟩ := slotAt_setRemoved_fields s j x
      exact ⟨a, b, c⟩) s.m (start_index hash s k)
  · intro s₁ hs₁
    obtain ⟨hother, hhome⟩ := insert_empty_state hash size k v
    have hm : 0 < s₁.m := by
      rw [hs₁]
      show 0 < (mkMap size : MapState K V).m
      exact mkMap_m_pos size
    have hstart : start_index hash s₁ k = start_index hash (mkMap size : MapState K V) k := by
      rw [hs₁]
      rfl
    have hslot : slotAt s₁ (start_index hash s₁ k) = ⟨true, true, false, k, v⟩ := by
      rw [hstart, hs₁]
      exact hhome
    have hrem : remove hash s₁ k = some (true, setRemoved s₁ (start_index hash s₁ k)) :=
      remove_hits_home hash hm (by rw [hslot]) (by rw [hslot]) (by rw [hslot])
    refine ⟨hrem, ?_⟩
    have hlen : start_index hash s₁ k < s₁.slots.length := by
      have hlm : s₁.slots.length = s₁.m := by
        rw [hs₁]
        simp [mkMap_len]
      rw [hlm]
      exact Nat.mod_lt _ hm
    have hslot' : slotAt (setRemoved s₁ (start_index hash s₁ k))
        (start_index hash s₁ k) = ⟨true, true, true, k, v⟩ := by
      rw [slotAt_setRemoved_self hlen, hslot]
    have hm' : 0 < (setRemoved s₁ (start_index hash s₁ k)).m := hm
    have hstart' : start_index hash (setRemoved s₁ (start_index hash s₁ k)) k =
        start_index hash s₁ k := rfl
    have h1 : (slotAt (setRemoved s₁ (start_index hash s₁ k))
        (start_index hash (setRemoved s₁ (start_index hash s₁ k)) k)).taken = true := by
      rw [hstart', hslot']
    have h2 : (slotAt (setRemoved s₁ (start_index hash s₁ k))
        (start_index hash (setRemoved s₁ (start_index hash s₁ k)) k)).key = k := by
      rw [hstart', hslot']
    have h3 : (slotAt (setRemoved s₁ (start_index hash s₁ k))
        (start_index hash (setRemoved s₁ (start_index hash s₁ k)) k)).value ≠ v₂ := by
      rw [hstart', hslot']
      exact fun he => hne he.symm
    have hgv := get_value_hits_home hash hm' h1 h2 h3
    rw [hstart', hslot'] at hgv
    exact hgv

/-- Claim C7 witness. -/
theorem get_value_ignores_removed_flag_witness :
    get_value (fun _ => 0) (setRemoved (mkMap 0 : MapState Nat Nat) 3) 1 9 =
        get_value (fun _ => 0) (mkMap 0 : MapState Nat Nat) 1 9 ∧
      insert_and_set (fun _ => 0) (mkMap 0 : MapState Nat Nat) 1 7 =
        some (.Success,
          setCheck (writeSlot (mkMap 0 : MapState Nat Nat)
              (start_index (fun _ => 0) (mkMap 0 : MapState Nat Nat) 1) 1 7)
            (start_index (fun _ => 0) (mkMap 0 : MapState Nat Nat) 1)) ∧
      (∀ s₁ : MapState Nat Nat,
        s₁ = setCheck (writeSlot (mkMap 0 : MapState Nat Nat)
            (start_index (fun _ => 0) (mkMap 0 : MapState Nat Nat) 1) 1 7)
          (start_index (fun _ => 0) (mkMap 0 : MapState Nat Nat) 1) →
        remove (fun _ => 0) s₁ 1 = some (true, setRemoved s₁ (start_index (fun _ => 0) s₁ 1)) ∧
        get_value (fun _ => 0) (setRemoved s₁ (start_index (fun _ => 0) s₁ 1)) 1 9 =
          some (some 7)) :=
  get_value_ignores_removed_flag (fun _ => 0) 0 1 7 9 (by decide) 3 (mkMap 0)

/-- Claim C8: `remove(k)` marks the first claimed, non-removed slot in
`k`'s probe chain whose key equals `k` as removed and returns true; if the
scan reaches an unclaimed slot without such a match it returns false and
changes nothing; and concretely, after a successful `insert_and_set(k, v)`
on a fresh table followed by a successful `remove(k)`, with no other live
entry for `k`, a second `remove(k)` returns NotFound (false). -/
theorem remove_tombstone_semantics {K V : Type} [DecidableEq K] [DecidableEq V]
    [Inhabited K] [Inhabited V] (hash : K → Nat) (size : Nat) (k : K) (v : V)
    (s : MapState K V) (t : Nat) :
    (0 < s.m → t < s.m →
      (∀ t', t' < t → (slotAt s (addIdx s.m (start_index hash s k) t')).taken = true ∧
        ¬((slotAt s (addIdx s.m (start_index hash s k) t')).removed = false ∧
          (slotAt s (addIdx s.m (start_index hash s k) t')).key = k)) →
      (slotAt s (addIdx s.m (start_index hash s k) t)).taken = true →
      (slotAt s (addIdx s.m (start_index hash s k) t)).removed = false →
      (slotAt s (addIdx s.m (start_index hash s k) t)).key = k →
      remove hash s k = some (true, setRemoved s (addIdx s.m (start_index hash s k) t))) ∧
    (0 < s.m → t < s.m →
      (∀ t', t' < t → (slotAt s (addIdx s.m (start_index hash s k) t')).taken = true ∧
        ¬((slotAt s (addIdx s.m (start_index hash s k) t')).removed = false ∧
          (slotAt s (addIdx s.m (start_index hash s k) t')).key = k)) →
      (slotAt s (addIdx s.m (start_index hash s k) t)).taken = false →
      remove hash s k = some (false, s)) ∧
    insert_and_set hash (mkMap size : MapState K V) k v =
      some (.Success,
        setCheck (writeSlot (mkMap size : MapState K V)
            (start_index hash (mkMap size : MapState K V) k) k v)
          (start_index hash (mkMap size : MapState K V) k)) ∧
    (∀ s₁ : MapState K V,
      s₁ = setCheck (writeSlot (mkMap size : MapState K V)
          (start_index hash (mkMap size : MapState K V) k) k v)
        (start_index hash (mkMap size : MapState K V) k) →
      remove hash s₁ k = some (true, setRemoved s₁ (start_index hash s₁ k)) ∧
      remove hash (setRemoved s₁ (start_index hash s₁ k)) k =
        some (false, setRemoved s₁ (start_index hash s₁ k))) := by
  refine ⟨?_, ?_, insert_empty hash size k v, ?_⟩
  · intro hm ht hbefore h1 h2 h3
    exact remove_first_match hash hm t ht hbefore h1 h2 h3
  · intro hm ht hbefore h1
    exact remove_unclaimed_stop hash hm t ht hbefore h1
  · intro s₁ hs₁
    obtain ⟨hother, hhome⟩ := insert_empty_state hash size k v
    have hm : 0 < s₁.m := by
      rw [hs₁]
      show 0 < (mkMap size : MapState K V).m
      exact mkMap_m_pos size
    have hm2 : 2 ≤ s₁.m := by
      rw [hs₁]
      show 2 ≤ (mkMap size : MapState K V).m
      rw [mkMap_m]
      omega
    have hstart : start_index hash s₁ k = start_index hash (mkMap size : MapState K V) k := by
      rw [hs₁]
      rfl
    have hslot : slotAt s₁ (start_index hash s₁ k) = ⟨true, true, false, k, v⟩ := by
      rw [hstart, hs₁]
      exact hhome
    refine ⟨remove_hits_home hash hm (by rw [hslot]) (by rw [hslot]) (by rw [hslot]), ?_⟩
    have hlen : start_index hash s₁ k < s₁.slots.length := by
      have hlm : s₁.slots.length = s₁.m := by
        rw [hs₁]
        simp [mkMap_len]
      rw [hlm]
      exact Nat.mod_lt _ hm
    have hhomelt : start_index hash s₁ k < s₁.m := Nat.mod_lt _ hm
    have hslotr : slotAt (setRemoved s₁ (start_index hash s₁ k))
        (start_index hash s₁ k) = ⟨true, true, true, k, v⟩ := by
      rw [slotAt_setRemoved_self hlen, hslot]
    have hstart2 : start_index hash (setRemoved s₁ (start_index hash s₁ k)) k =
        start_index hash s₁ k := rfl
    have hne1 : addIdx s₁.m (start_index hash s₁ k) 1 ≠ start_index hash s₁ k :=
      addIdx_ne_start hhomelt (by omega) (by omega)
    have hnext_default : slotAt s₁ (addIdx s₁.m (start_index hash s₁ k) 1) =
        (default : MEntry K V) := by
      rw [hs₁]
      have := hother (addIdx s₁.m (start_index hash s₁ k) 1) (by
        rw [← hstart]
        exact hne1)
      rw [hs₁] at this
      exact this
    have hnext : (slotAt (setRemoved s₁ (start_index hash s₁ k))
        (addIdx (setRemoved s₁ (start_index hash s₁ k)).m
          (start_index hash (setRemoved s₁ (start_index hash s₁ k)) k) 1)).taken = false := by
      have hconv : addIdx (setRemoved s₁ (start_index hash s₁ k)).m
          (start_index hash (setRemoved s₁ (start_index hash s₁ k)) k) 1 =
          addIdx s₁.m (start_index hash s₁ k) 1 := rfl
      rw [hconv, slotAt_setRemoved_ne s₁ hne1, hnext_default]
      rfl
    have := remove_misses hash (s := setRemoved s₁ (start_index hash s₁ k)) (k := k)
      hm2 (by rw [hstart2, hslotr]) (by rw [hstart2, hslotr]; simp) hnext
    exact this

/-- Claim C8 witness. -/
theorem remove_tombstone_semantics_witness :
    insert_and_set (fun _ => 0) (mkMap 0 : MapState Nat Nat) 1 7 =
      some (.Success,
        setCheck (writeSlot (mkMap 0 : MapState Nat Nat)
            (start_index (fun _ => 0) (mkMap 0 : MapState Nat Nat) 1) 1 7)
          (start_index (fun _ => 0) (mkMap 0 : MapState Nat Nat) 1)) ∧
    (∀ s₁ : MapState Nat Nat,
      s₁ = setCheck (writeSlot (mkMap 0 : MapState Nat Nat)
          (start_index (fun _ => 0) (mkMap 0 : MapState Nat Nat) 1) 1 7)
        (start_index (fun _ => 0) (mkMap 0 : MapState Nat Nat) 1) →
      remove (fun _ => 0) s₁ 1 = some (true, setRemoved s₁ (start_index (fun _ => 0) s₁ 1)) ∧
      remove (fun _ => 0) (setRemoved s₁ (start_index (fun _ => 0) s₁ 1)) 1 =
        some (false, setRemoved s₁ (start_index (fun _ => 0) s₁ 1))) :=
  ⟨(remove_tombstone_semantics (fun _ => 0) 0 1 7 (mkMap 0) 0).2.2.1,
   (remove_tombstone_semantics (fun _ => 0) 0 1 7 (mkMap 0) 0).2.2.2⟩

/-- Claim C9: whenever at least one slot of the table is unclaimed, the
scan loops of `remove`, `get_value` and the post-claim verification scan
of `insert_and_set` all terminate (each is stopped no later than the first
unclaimed slot of its probe chain); and since none of the three has a
wrap-around exit at the home slot, when every slot is claimed and no slot
can end the scan early, each loop runs forever (`none` at every fuel). -/
theorem scan_termination_and_divergence {K V : Type} [DecidableEq K] [DecidableEq V]
    [Inhabited K] [Inhabited V] (s : MapState K V) (k : K) (v : V) (i fuel : Nat)
    (hl : s.slots.length = s.m) (hi : i < s.m) :
    ((∃ e ∈ s.slots, e.taken = false) →
      (removeLoop s k i s.m).isSome = true ∧
      (getLoop s k v i s.m).isSome = true ∧
      (checkScan s k i (2 * s.m + 1)).isSome = true) ∧
    ((∀ e ∈ s.slots, e.taken = true) →
      ((∀ e ∈ s.slots, ¬(e.removed = false ∧ e.key = k)) →
        removeLoop s k i fuel = none) ∧
      ((∀ e ∈ s.slots, ¬(e.key = k ∧ e.value ≠ v)) →
        getLoop s k v i fuel = none) ∧
      ((∀ e ∈ s.slots, e.key ≠ k) →
        checkScan s k i fuel = none)) := by
  have hm : 0 < s.m := by omega
  constructor
  · intro hfree
    obtain ⟨j, hj, hjf⟩ := exists_untaken_idx hl hfree
    obtain ⟨d, hd, hdidx⟩ := exists_addIdx hm hi hj
    have hun : (slotAt s (addIdx s.m i d)).taken = false := by rw [hdidx]; exact hjf
    exact ⟨removeLoop_isSome hm d i s.m hi hun (by omega),
      getLoop_isSome hm d i s.m hi hun (by omega),
      checkScan_isSome d s i (2 * s.m + 1) hl hm hi hun (by omega)⟩
  · intro hall
    have hall' : ∀ j, j < s.m → (slotAt s j).taken = true :=
      (forall_slots_iff hl _).mp hall
    refine ⟨?_, ?_, ?_⟩
    · intro hnom
      exact removeLoop_none hm hall' ((forall_slots_iff hl _).mp hnom) fuel i hi
    · intro hnom
      exact getLoop_none hm hall' ((forall_slots_iff hl _).mp hnom) fuel i hi
    · intro hnok
      exact checkScan_none hm hall' ((forall_slots_iff hl _).mp hnok) fuel i hi

/-- Claim C9 witness: a two-slot fully-claimed table with no matching key
diverges in all three scans, while the termination clause is vacuous. -/
theorem scan_termination_and_divergence_witness :
    ((∃ e ∈ (MapState.mk 2
      [MEntry.mk true false false 5 0, MEntry.mk true false false 6 0] : MapState Nat Nat).slots, e.taken = false) →
      (removeLoop (MapState.mk 2
      [MEntry.mk true false false 5 0, MEntry.mk true false false 6 0] : MapState Nat Nat) 9 0 2).isSome = true ∧
      (getLoop (MapState.mk 2
      [MEntry.mk true false false 5 0, MEntry.mk true false false 6 0] : MapState Nat Nat) 9 0 0 2).isSome = true ∧
      (checkScan (MapState.mk 2
      [MEntry.mk true false false 5 0, MEntry.mk true false false 6 0] : MapState Nat Nat) 9 0 (2 * 2 + 1)).isSome = true) ∧
    ((∀ e ∈ (MapState.mk 2
      [MEntry.mk true false false 5 0, MEntry.mk true false false 6 0] : MapState Nat Nat).slots, e.taken = true) →
      ((∀ e ∈ (MapState.mk 2
      [MEntry.mk true false false 5 0, MEntry.mk true false false 6 0] : MapState Nat Nat).slots, ¬(e.removed = false ∧ e.key = 9)) →
        removeLoop (MapState.mk 2
      [MEntry.mk true false false 5 0, MEntry.mk true false false 6 0] : MapState Nat Nat) 9 0 7 = none) ∧
      ((∀ e ∈ (MapState.mk 2
      [MEntry.mk true false false 5 0, MEntry.mk true false false 6 0] : MapState Nat Nat).slots, ¬(e.key = 9 ∧ e.value ≠ 0)) →
        getLoop (MapState.mk 2
      [MEntry.mk true false false 5 0, MEntry.mk true false false 6 0] : MapState Nat Nat) 9 0 0 7 = none) ∧
      ((∀ e ∈ (MapState.mk 2
      [MEntry.mk true false false 5 0, MEntry.mk true false false 6 0] : MapState Nat Nat).slots, e.key ≠ 9) →
        checkScan (MapState.mk 2
      [MEntry.mk true false false 5 0, MEntry.mk true false false 6 0] : MapState Nat Nat) 9 0 7 = none)) :=
  scan_termination_and_divergence
    (MapState.mk 2
      [MEntry.mk true false false 5 0, MEntry.mk true false false 6 0] : MapState Nat Nat) 9 0 0 7 (by decide) (by decide)

end ClaimTheorems

section DriverClaims

/-- Claim C10 counterexample: with no positional argument (`argc = 1`),
the driver prints the usage message but `main` falls through and exits
with status 0, not a non-zero status as claimed. -/
theorem driver_missing_arg_exit_zero :
    driver_cli ["convex_hull_3d"] = .error (["Usage: <n>"], 0) := by rfl

/-- Claim C10 (amended): a missing argument (argument count different
from two) prints the usage message and terminates with exit status 0 (the
implicit `return 0` of `main`); an argument that is not parseable as an
integer prints the usage message and terminates with the non-zero status
1. -/
theorem driver_usage_behavior (args : List String) :
    (args.length ≠ 2 → driver_cli args = .error (["Usage: <n>"], 0)) ∧
    (∀ p a, args = [p, a] → stoi_model a = none →
      driver_cli args = .error (["Usage: <n>"], 1)) := by
  constructor
  · intro h
    unfold driver_cli
    rw [if_pos h]
  · intro p a hargs hparse
    subst hargs
    unfold driver_cli
    rw [if_neg (by simp)]
    have hget : ([p, a].getD 1 "") = a := rfl
    rw [hget, hparse]

/-- Claim C10 witness. -/
theorem driver_usage_behavior_witness :
    driver_cli ["convex_hull_3d", "abc"] = .error (["Usage: <n>"], 1) :=
  (driver_usage_behavior ["convex_hull_3d", "abc"]).2 "convex_hull_3d" "abc" rfl (by decide)

end DriverClaims

section InsertClaims

open CHM

set_option maxRecDepth 200000 in
set_option maxHeartbeats 2000000 in
/-- Claim C3 counterexample: 101 calls with the single key 5 on a table
constructed with size 0 (capacity 100 slots): the distinct keys number 1,
well within capacity, yet duplicate calls also claim slots, so the final
call's claiming probe wraps back to the home slot and the call returns
CapacityExceeded — "every further call with an already-inserted key
returns LostRace, never CapacityExceeded" fails. -/
theorem insert_duplicate_calls_capacity_exceeded :
    ((List.replicate 101 ((5 : Nat), (7 : Nat))).map Prod.fst).dedup.length = 1 ∧
    (mkMap 0 : MapState Nat Nat).m = 100 ∧
    (runInserts (fun _ => 0) (mkMap 0 : MapState Nat Nat)
        (List.replicate 101 ((5 : Nat), (7 : Nat)))).map
      (fun p => (p.1.count InsertOutcome.Success,
        p.1.count InsertOutcome.LostRace,
        p.1.count InsertOutcome.CapacityExceeded)) = some (1, 99, 1) := by
  refine ⟨by decide, by decide, by decide⟩

/-- Claim C3 (amended): for every sequence of `insert_and_set` calls whose
total number (duplicates included) is below the table's slot capacity,
every call terminates, exactly the first call on each key returns
Success, every further call on an already-inserted key returns LostRace,
and no call returns CapacityExceeded; duplicate calls also consume slots,
and the CapacityExceeded outcome — the claiming probe wrapping back to
the home slot, reported to the caller rather than silently dropped —
occurs exactly when every slot of the table is taken. -/
theorem insert_and_set_outcomes_within_capacity {K V : Type} [DecidableEq K]
    [DecidableEq V] [Inhabited K] [Inhabited V] (hash : K → Nat) (size : Nat)
    (calls : List (K × V)) (hroom : calls.length < (mkMap size : MapState K V).m) :
    (∃ s' outs, runInserts hash (mkMap size : MapState K V) calls = some (outs, s') ∧
      outs = expectedOuts [] calls ∧
      (∀ i, ∀ h : i < calls.length, outs[i]? =
        some (if (calls[i]).1 ∈ (calls.take i).map Prod.fst
          then InsertOutcome.LostRace else InsertOutcome.Success)) ∧
      InsertOutcome.CapacityExceeded ∉ outs) ∧
    (∀ (s : MapState K V) (k : K) (v : V), s.slots.length = s.m → 0 < s.m →
      ((∃ s₂, insert_and_set hash s k v = some (.CapacityExceeded, s₂)) ↔
        ∀ e ∈ s.slots, e.taken = true)) := by
  constructor
  · obtain ⟨s', hrun, _, _⟩ := runInserts_spec hash calls (mkMap size) []
      (insInv_init hash size) (by simpa using hroom)
    refine ⟨s', expectedOuts [] calls, hrun, rfl, ?_, expectedOuts_no_capacity calls []⟩
    intro i h
    rw [expectedOuts_getElem calls [] i h]
    congr 1
    simp
  · intro s k v hl hm
    exact insert_capacity_iff hash s k v hl hm

/-- Claim C3 witness. -/
theorem insert_and_set_outcomes_within_capacity_witness :
    (∃ s' outs, runInserts (fun _ => 0) (mkMap 0 : MapState Nat Nat)
        [(1, 10), (1, 11), (2, 20)] = some (outs, s') ∧
      outs = expectedOuts [] [(1, 10), (1, 11), (2, 20)] ∧
      (∀ i, ∀ h : i < ([(1, 10), (1, 11), (2, 20)] :
          List (Nat × Nat)).length, outs[i]? =
        some (if (([(1, 10), (1, 11), (2, 20)] : List (Nat × Nat))[i]).1 ∈
            (([(1, 10), (1, 11), (2, 20)] : List (Nat × Nat)).take i).map Prod.fst
          then InsertOutcome.LostRace else InsertOutcome.Success)) ∧
      InsertOutcome.CapacityExceeded ∉ outs) ∧
    (∀ (s : MapState Nat Nat) (k v : Nat), s.slots.length = s.m → 0 < s.m →
      ((∃ s₂, insert_and_set (fun _ => 0) s k v = some (.CapacityExceeded, s₂)) ↔
        ∀ e ∈ s.slots, e.taken = true)) :=
  insert_and_set_outcomes_within_capacity (fun _ => 0) 0
    [(1, 10), (1, 11), (2, 20)] (by decide)

end InsertClaims

section HullHelpers

/-- `process_ridge` on two records with empty conflict lists stabilizes
the ridge: it returns the state unchanged. -/
theorem process_ridge_stable (C : HullCtx) (fuel : Nat) (t1 t2 : tptr) (r : edge)
    (st : HullState) (h1 : t1.2.conflicts = []) (h2 : t2.2.conflicts = []) :
    process_ridge C (fuel + 1) t1 r t2 st = .ok st := by
  rw [process_ridge]
  rw [if_pos ⟨by rw [h1]; rfl, by rw [h2]; rfl⟩]

theorem insT_ok {hashT : tri → Nat} {s s' : CHM.MapState tri Bool} {k : tri}
    {o : CHM.InsertOutcome} (h : CHM.insert_and_set hashT s k true = some (o, s')) :
    insT hashT k s = .ok s' := by
  unfold insT
  rw [h]

theorem except_bind_ok {ε α β : Type} (a : α) (f : α → Except ε β) :
    ((Except.ok a : Except ε α) >>= f) = f a := rfl

/-- A `removeLoop` result state is the input state, possibly with one slot
tombstoned. -/
theorem removeLoop_result {K V : Type} [DecidableEq K] [DecidableEq V]
    [Inhabited K] [Inhabited V] {s : CHM.MapState K V} {k : K} {b : Bool}
    {s' : CHM.MapState K V} :
    ∀ fuel i, CHM.removeLoop s k i fuel = some (b, s') →
      s' = s ∨ ∃ j, s' = CHM.setRemoved s j := by
  intro fuel
  induction fuel with
  | zero => intro i h; exact Option.noConfusion h
  | succ fuel ih =>
    intro i h
    rw [CHM.removeLoop_succ] at h
    by_cases h1 : (CHM.slotAt s i).taken = false
    · rw [if_pos h1] at h
      injection h with h
      injection h with _ h
      exact Or.inl h.symm
    · rw [if_neg h1] at h
      by_cases h2 : (CHM.slotAt s i).removed = false ∧ (CHM.slotAt s i).key = k
      · rw [if_pos h2] at h
        injection h with h
        injection h with _ h
        exact Or.inr ⟨i, h.symm⟩
      · rw [if_neg h2] at h
        exact ih _ h

theorem get_visible_points_nil (points : List point) (t : tri) (pid : point_id) :
    get_visible_points points t pid [] = [] := rfl

end HullHelpers

section SortHelpers

theorem pack_cons {α : Type} (x : α) (xs : List α) (b : Bool) (ks : List Bool) :
    pack (x :: xs) (b :: ks) = if b then x :: pack xs ks else pack xs ks := by
  cases b <;> rfl

theorem pack_nil_keep {α : Type} (xs : List α) : pack xs [] = [] := by
  cases xs <;> rfl

theorem pack_sublist {α : Type} : ∀ (xs : List α) (keep : List Bool),
    List.Sublist (pack xs keep) xs := by
  intro xs
  induction xs with
  | nil => intro keep; simp [pack]
  | cons x xs ih =>
    intro keep
    cases keep with
    | nil =>
      rw [pack_nil_keep]
      exact List.nil_sublist _
    | cons b ks =>
      rw [pack_cons]
      cases b
      · simpa using (ih ks).cons x
      · simpa using (ih ks).cons₂ x

theorem mem_pmerge : ∀ (l1 l2 : List point) (z : point), z ∈ pmerge l1 l2 → z ∈ l1 ∨ z ∈ l2 := by
  intro l1 l2
  induction l1, l2 using pmerge.induct with
  | case1 ys =>
    intro z hz
    rw [pmerge] at hz
    exact Or.inr hz
  | case2 x xs =>
    intro z hz
    rw [pmerge] at hz
    exact Or.inl hz
  | case3 x xs y ys hlt ih =>
    intro z hz
    rw [pmerge, if_pos hlt] at hz
    rcases List.mem_cons.mp hz with rfl | hz
    · exact Or.inr (List.mem_cons_self _ _)
    · rcases ih z hz with h | h
      · exact Or.inl h
      · exact Or.inr (List.mem_cons_of_mem _ h)
  | case4 x xs y ys hlt ih =>
    intro z hz
    rw [pmerge, if_neg hlt] at hz
    rcases List.mem_cons.mp hz with rfl | hz
    · exact Or.inl (List.mem_cons_self _ _)
    · rcases ih z hz with h | h
      · exact Or.inl (List.mem_cons_of_mem _ h)
      · exact Or.inr h

theorem pmerge_sorted : ∀ (l1 l2 : List point),
    List.Pairwise (fun a b : point => a.id ≤ b.id) l1 →
    List.Pairwise (fun a b : point => a.id ≤ b.id) l2 →
    List.Pairwise (fun a b : point => a.id ≤ b.id) (pmerge l1 l2) := by
  intro l1 l2
  induction l1, l2 using pmerge.induct with
  | case1 ys =>
    intro _ h2
    rw [pmerge]
    exact h2
  | case2 x xs =>
    intro h1 _
    rw [pmerge]
    exact h1
  | case3 x xs y ys hlt ih =>
    intro h1 h2
    rw [pmerge, if_pos hlt]
    rw [List.pairwise_cons] at h2
    refine List.Pairwise.cons ?_ (ih h1 h2.2)
    intro z hz
    rcases mem_pmerge _ _ z hz with h | h
    · rcases List.mem_cons.mp h with rfl | h
      · exact le_of_lt hlt
      · rw [List.pairwise_cons] at h1
        have hxz : x.id ≤ z.id := h1.1 z h
        exact le_of_lt (lt_of_lt_of_le hlt hxz)
    · exact h2.1 z h
  | case4 x xs y ys hlt ih =>
    intro h1 h2
    rw [pmerge, if_neg hlt]
    rw [List.pairwise_cons] at h1
    refine List.Pairwise.cons ?_ (ih h1.2 h2)
    intro z hz
    rcases mem_pmerge _ _ z hz with h | h
    · exact h1.1 z h
    · rcases List.mem_cons.mp h with rfl | h
      · exact not_lt.mp hlt
      · rw [List.pairwise_cons] at h2
        exact le_trans (not_lt.mp hlt) (h2.1 z h)

theorem dedupAux_sorted : ∀ (us : List point) (prev : point),
    List.Pairwise (fun a b : point => a.id ≤ b.id) (prev :: us) →
    List.Pairwise (fun a b : point => a.id < b.id) (dedupAux prev us) ∧
    ∀ z ∈ dedupAux prev us, prev.id < z.id := by
  intro us
  induction us with
  | nil => intro prev _; exact ⟨List.Pairwise.nil, by intro z hz; exact absurd hz (List.not_mem_nil z)⟩
  | cons x xs ih =>
    intro prev h
    rw [List.pairwise_cons] at h
    have hpx : prev.id ≤ x.id := h.1 x (List.mem_cons_self _ _)
    have hx := ih x h.2
    unfold dedupAux
    by_cases hne : x.id = prev.id
    · rw [if_neg (by simpa using hne)]
      refine ⟨hx.1, ?_⟩
      intro z hz
      have hxz := hx.2 z hz
      rw [← hne]
      exact hxz
    · rw [if_pos (by simpa using hne)]
      refine ⟨List.Pairwise.cons (fun z hz => hx.2 z hz) hx.1, ?_⟩
      intro z hz
      rcases List.mem_cons.mp hz with rfl | hz
      · exact lt_of_le_of_ne hpx (Ne.symm hne)
      · exact lt_of_le_of_lt hpx (hx.2 z hz)

theorem dedupSpec_sorted (uni : List point)
    (h : List.Pairwise (fun a b : point => a.id ≤ b.id) uni) :
    List.Pairwise (fun a b : point => a.id < b.id) (dedupSpec uni) := by
  cases uni with
  | nil => exact List.Pairwise.nil
  | cons u us =>
    exact (dedupAux_sorted us u h).1

theorem tabulate_succ {α : Type} (n : Nat) (f : Nat → α) :
    tabulate (n + 1) f = f 0 :: tabulate n (fun i => f (i + 1)) := by
  unfold tabulate
  rw [List.range_succ_eq_map]
  simp [List.map_map, Function.comp]

theorem tabulate_congr {α : Type} (n : Nat) (f g : Nat → α)
    (h : ∀ i, i < n → f i = g i) : tabulate n f = tabulate n g := by
  unfold tabulate
  exact List.map_congr_left fun i hi => h i (List.mem_range.mp hi)

theorem dedup_pack_aux : ∀ (xs : List point) (prev : point),
    pack xs (tabulate xs.length fun i =>
      decide ((xs.getD i default).id ≠ ((prev :: xs).getD i default).id)) =
    dedupAux prev xs := by
  intro xs
  induction xs with
  | nil => intro prev; rfl
  | cons x xs ih =>
    intro prev
    rw [List.length_cons, tabulate_succ, pack_cons]
    have hflag : ∀ i, i < xs.length →
        decide (((x :: xs).getD (i + 1) default).id ≠
          ((prev :: x :: xs).getD (i + 1) default).id) =
        decide ((xs.getD i default).id ≠ ((x :: xs).getD i default).id) := by
      intro i _
      simp [List.getD_cons_succ]
    rw [tabulate_congr _ _ _ hflag, ih x]
    by_cases hne : x.id = prev.id
    · simp [dedupAux, hne]
    · simp [dedupAux, hne]

theorem dedup_pack_full (uni : List point) :
    pack uni (tabulate uni.length fun i =>
      decide (i ≠ 0) && decide ((uni.getD i default).id ≠ (uni.getD (i - 1) default).id)) =
    dedupSpec uni := by
  cases uni with
  | nil => rfl
  | cons x xs =>
    rw [List.length_cons, tabulate_succ, pack_cons]
    have hflag : ∀ i, i < xs.length →
        (decide (i + 1 ≠ 0) && decide (((x :: xs).getD (i + 1) default).id ≠
          ((x :: xs).getD (i + 1 - 1) default).id)) =
        decide ((xs.getD i default).id ≠ ((x :: xs).getD i default).id) := by
      intro i _
      simp [List.getD_cons_succ]
    rw [tabulate_congr _ _ _ hflag, dedup_pack_aux xs x]
    simp [dedupSpec]

theorem conflict_union_eq (c1 c2 : List point) :
    conflict_union c1 c2 = dedupSpec (pmerge c1 c2) :=
  dedup_pack_full (pmerge c1 c2)

theorem conflict_union_sorted (c1 c2 : List point)
    (h1 : List.Pairwise (fun a b : point => a.id < b.id) c1)
    (h2 : List.Pairwise (fun a b : point => a.id < b.id) c2) :
    List.Pairwise (fun a b : point => a.id < b.id) (conflict_union c1 c2) := by
  rw [conflict_union_eq]
  exact dedupSpec_sorted _ (pmerge_sorted c1 c2 (h1.imp le_of_lt) (h2.imp le_of_lt))

theorem get_visible_points_sorted (points : List point) (t : tri) (pid : point_id)
    (p : List point) (h : List.Pairwise (fun a b : point => a.id < b.id) p) :
    List.Pairwise (fun a b : point => a.id < b.id) (get_visible_points points t pid p) := by
  have hsub : List.Sublist (get_visible_points points t pid p) p := pack_sublist p _
  exact List.Pairwise.sublist hsub h

theorem min_conflicts_head (n : point_id) (t : triangle) (x : point) (xs : List point)
    (h : t.conflicts = x :: xs) : min_conflicts n t = x.id := by
  unfold min_conflicts
  rw [h]
  simp

theorem min_conflicts_min (n : point_id) (t : triangle)
    (hs : List.Pairwise (fun a b : point => a.id < b.id) t.conflicts)
    (hne : t.conflicts ≠ []) :
    (∃ z ∈ t.conflicts, z.id = min_conflicts n t) ∧
    ∀ z ∈ t.conflicts, min_conflicts n t ≤ z.id := by
  cases hc : t.conflicts with
  | nil => exact absurd hc hne
  | cons x xs =>
    have hm := min_conflicts_head n t x xs hc
    have hs' := hs
    rw [hc, List.pairwise_cons] at hs'
    constructor
    · exact ⟨x, List.mem_cons_self _ _, hm.symm⟩
    · intro z hz
      rw [hm]
      rcases List.mem_cons.mp hz with rfl | hz
      · exact le_refl _
      · exact le_of_lt (hs'.1 z hz)

end SortHelpers

section HullClaims

/-- Claim C6: for an input of exactly 4 points (in particular any
non-degenerate tetrahedron), the constructor's index filter leaves no
target points, every conflict list is empty, the six seed-ridge
resolutions return immediately, and `convex_hull_3d` returns exactly the
four seed facets (0,1,2), (1,2,3), (0,2,3), (0,1,3), each appearing once
— for any hash functions and any coordinates. -/
theorem convex_hull_3d_four_points (hashE : edge → Nat) (hashT : tri → Nat)
    (P : List point) (fuel : Nat) (hP : P.length = 4) :
    ∃ l, convex_hull_3d hashE hashT P (fuel + 1) = .ok l ∧
      List.Perm l [(0, 1, 2), (1, 2, 3), (0, 2, 3), (0, 1, 3)] := by
  have hex : ∃ a b c d, P = [a, b, c, d] := by
    rcases P with _ | ⟨a, _ | ⟨b, _ | ⟨c, _ | ⟨d, _ | ⟨e, rest⟩⟩⟩⟩⟩ <;>
      simp only [List.length_cons, List.length_nil] at hP <;>
      first
        | omega
        | exact ⟨a, b, c, d, rfl⟩
  obtain ⟨p0, p1, p2, p3, rfl⟩ := hex
  have inv0 : CHM.InsInv hashT (CHM.mkMap 24 : CHM.MapState tri Bool) [] :=
    CHM.insInv_init hashT 24
  obtain ⟨s1, hins1, inv1, hm1⟩ := CHM.insert_step hashT ((0, 1, 2) : tri) true inv0
    (by decide)
  rw [if_neg (by decide)] at hins1
  obtain ⟨s2, hins2, inv2, hm2⟩ := CHM.insert_step hashT ((1, 2, 3) : tri) true inv1 (by
    rw [hm1]; decide)
  rw [if_neg (by decide)] at hins2
  obtain ⟨s3, hins3, inv3, hm3⟩ := CHM.insert_step hashT ((0, 2, 3) : tri) true inv2 (by
    rw [hm2, hm1]; decide)
  rw [if_neg (by decide)] at hins3
  obtain ⟨s4, hins4, inv4, hm4⟩ := CHM.insert_step hashT ((0, 1, 3) : tri) true inv3 (by
    rw [hm3, hm2, hm1]; decide)
  rw [if_neg (by decide)] at hins4
  refine ⟨CHM.mkeys s4, ?_, ?_⟩
  · simp only [convex_hull_3d, hull_setup]
    have hlen : (6 * [p0, p1, p2, p3].length) = 24 := rfl
    rw [hlen]
    have htarget : pack [p0, p1, p2, p3]
        (tabulate [p0, p1, p2, p3].length fun i => decide (3 < i)) = [] := rfl
    rw [htarget]
    rw [insT_ok hins1, except_bind_ok, insT_ok hins2, except_bind_ok,
      insT_ok hins3, except_bind_ok, insT_ok hins4, except_bind_ok]
    simp only [get_visible_points_nil]
    rw [process_ridge_stable _ fuel _ _ _ _ rfl rfl, except_bind_ok]
    rw [process_ridge_stable _ fuel _ _ _ _ rfl rfl, except_bind_ok]
    rw [process_ridge_stable _ fuel _ _ _ _ rfl rfl, except_bind_ok]
    rw [process_ridge_stable _ fuel _ _ _ _ rfl rfl, except_bind_ok]
    rw [process_ridge_stable _ fuel _ _ _ _ rfl rfl, except_bind_ok]
    rw [process_ridge_stable _ fuel _ _ _ _ rfl rfl]
    rfl
  · rw [CHM.mkeys_eq_takenKeys inv4.removedF]
    exact inv4.keys_perm.trans (by decide)

/-- Claim C5: when `process_ridge(t1, r, t2)` is called with equal and
non-empty priorities (equal `min_conflicts` values over non-empty
conflict lists), it removes `t1`'s facet and then `t2`'s facet from the
Hull Set and changes nothing else: the ridge map and the allocation
counter are untouched, no facet is inserted, and the result does not
depend on the recursion fuel (no recursive call is made). -/
theorem process_ridge_tie_frame (C : HullCtx) (t1 t2 : tptr) (r : edge)
    (st : HullState) (fuel : Nat)
    (h1 : t1.2.conflicts ≠ []) (h2 : t2.2.conflicts ≠ [])
    (heq : min_conflicts C.n t2.2 = min_conflicts C.n t1.2)
    (hl : st.convex_hull.slots.length = st.convex_hull.m)
    (hfree : ∃ e ∈ st.convex_hull.slots, e.taken = false) :
    ∃ b₁ hm₁ b₂ hm₂,
      CHM.remove C.hashT st.convex_hull t1.2.t = some (b₁, hm₁) ∧
      CHM.remove C.hashT hm₁ t2.2.t = some (b₂, hm₂) ∧
      process_ridge C (fuel + 1) t1 r t2 st =
        .ok { map_facets := st.map_facets, convex_hull := hm₂, cntr := st.cntr } ∧
      (∀ fuel', process_ridge C (fuel' + 1) t1 r t2 st =
        .ok { map_facets := st.map_facets, convex_hull := hm₂, cntr := st.cntr }) := by
  have hm : 0 < st.convex_hull.m := by
    obtain ⟨e, he, _⟩ := hfree
    have : 0 < st.convex_hull.slots.length := List.length_pos.mpr (by
      intro hnil
      rw [hnil] at he
      exact List.not_mem_nil e he)
    omega
  -- first remove terminates
  obtain ⟨j₀, hj₀, hj₀f⟩ := CHM.exists_untaken_idx hl hfree
  have hhome1 : CHM.start_index C.hashT st.convex_hull t1.2.t < st.convex_hull.m :=
    Nat.mod_lt _ hm
  obtain ⟨d₁, hd₁, hd₁idx⟩ := CHM.exists_addIdx hm hhome1 hj₀
  have hsome1 : (CHM.removeLoop st.convex_hull t1.2.t
      (CHM.start_index C.hashT st.convex_hull t1.2.t) st.convex_hull.m).isSome = true :=
    CHM.removeLoop_isSome hm d₁ _ _ hhome1 (by rw [hd₁idx]; exact hj₀f) (by omega)
  obtain ⟨p₁, hp₁⟩ := Option.isSome_iff_exists.mp hsome1
  obtain ⟨b₁, hm₁⟩ := p₁
  have hrem1 : CHM.remove C.hashT st.convex_hull t1.2.t = some (b₁, hm₁) := hp₁
  -- the result preserves taken flags and sizes
  have hres1 := removeLoop_result _ _ hp₁
  have hm₁m : hm₁.m = st.convex_hull.m := by
    rcases hres1 with rfl | ⟨j, rfl⟩
    · rfl
    · rfl
  have hm₁len : hm₁.slots.length = hm₁.m := by
    rcases hres1 with rfl | ⟨j, rfl⟩
    · exact hl
    · simpa using hl
  have hm₁taken : ∀ x, (CHM.slotAt hm₁ x).taken = (CHM.slotAt st.convex_hull x).taken := by
    rcases hres1 with rfl | ⟨j, rfl⟩
    · intro x; rfl
    · intro x; exact (CHM.slotAt_setRemoved_fields st.convex_hull j x).1
  -- second remove terminates
  have hm2pos : 0 < hm₁.m := by omega
  have hhome2 : CHM.start_index C.hashT hm₁ t2.2.t < hm₁.m := Nat.mod_lt _ hm2pos
  have hj₀' : j₀ < hm₁.m := by omega
  obtain ⟨d₂, hd₂, hd₂idx⟩ := CHM.exists_addIdx hm2pos hhome2 hj₀'
  have hsome2 : (CHM.removeLoop hm₁ t2.2.t
      (CHM.start_index C.hashT hm₁ t2.2.t) hm₁.m).isSome = true :=
    CHM.removeLoop_isSome hm2pos d₂ _ _ hhome2 (by
      rw [hd₂idx, hm₁taken]
      exact hj₀f) (by omega)
  obtain ⟨p₂, hp₂⟩ := Option.isSome_iff_exists.mp hsome2
  obtain ⟨b₂, hm₂⟩ := p₂
  have hrem2 : CHM.remove C.hashT hm₁ t2.2.t = some (b₂, hm₂) := hp₂
  refine ⟨b₁, hm₁, b₂, hm₂, hrem1, hrem2, ?_, ?_⟩
  · rw [process_ridge]
    rw [if_neg (by
      intro hcon
      exact h1 (List.length_eq_zero.mp hcon.1))]
    rw [if_pos heq, hrem1]
    dsimp only
    rw [hrem2]
  · intro fuel'
    rw [process_ridge]
    rw [if_neg (by
      intro hcon
      exact h1 (List.length_eq_zero.mp hcon.1))]
    rw [if_pos heq, hrem1]
    dsimp only
    rw [hrem2]

/-- Claim C5 witness: two records sharing the minimal conflict point 7. -/
theorem process_ridge_tie_frame_witness :
    ∃ b₁ hm₁ b₂ hm₂,
      CHM.remove (fun _ => 0)
          (⟨CHM.mkMap 0, CHM.mkMap 0, 5⟩ : HullState).convex_hull
          (((0 : Nat), (⟨(0, 1, 2), 3, [⟨7, 0, 0, 0⟩]⟩ : triangle)) : tptr).2.t =
        some (b₁, hm₁) ∧
      CHM.remove (fun _ => 0) hm₁
          (((1 : Nat), (⟨(1, 2, 3), 0, [⟨7, 1, 1, 1⟩]⟩ : triangle)) : tptr).2.t =
        some (b₂, hm₂) ∧
      process_ridge (⟨[], 0, fun _ => 0, fun _ => 0⟩ : HullCtx) (0 + 1)
          (((0 : Nat), (⟨(0, 1, 2), 3, [⟨7, 0, 0, 0⟩]⟩ : triangle)) : tptr) (1, 2)
          (((1 : Nat), (⟨(1, 2, 3), 0, [⟨7, 1, 1, 1⟩]⟩ : triangle)) : tptr)
          (⟨CHM.mkMap 0, CHM.mkMap 0, 5⟩ : HullState) =
        .ok { map_facets := (⟨CHM.mkMap 0, CHM.mkMap 0, 5⟩ : HullState).map_facets,
              convex_hull := hm₂,
              cntr := (⟨CHM.mkMap 0, CHM.mkMap 0, 5⟩ : HullState).cntr } ∧
      (∀ fuel', process_ridge (⟨[], 0, fun _ => 0, fun _ => 0⟩ : HullCtx) (fuel' + 1)
          (((0 : Nat), (⟨(0, 1, 2), 3, [⟨7, 0, 0, 0⟩]⟩ : triangle)) : tptr) (1, 2)
          (((1 : Nat), (⟨(1, 2, 3), 0, [⟨7, 1, 1, 1⟩]⟩ : triangle)) : tptr)
          (⟨CHM.mkMap 0, CHM.mkMap 0, 5⟩ : HullState) =
        .ok { map_facets := (⟨CHM.mkMap 0, CHM.mkMap 0, 5⟩ : HullState).map_facets,
              convex_hull := hm₂,
              cntr := (⟨CHM.mkMap 0, CHM.mkMap 0, 5⟩ : HullState).cntr }) :=
  process_ridge_tie_frame (⟨[], 0, fun _ => 0, fun _ => 0⟩ : HullCtx)
    (((0 : Nat), (⟨(0, 1, 2), 3, [⟨7, 0, 0, 0⟩]⟩ : triangle)) : tptr)
    (((1 : Nat), (⟨(1, 2, 3), 0, [⟨7, 1, 1, 1⟩]⟩ : triangle)) : tptr)
    (1, 2) (⟨CHM.mkMap 0, CHM.mkMap 0, 5⟩ : HullState) 0
    (by simp) (by simp) (by decide) (by decide) (by decide)

/-- Claim C6 witness: the standard tetrahedron. -/
theorem convex_hull_3d_four_points_witness :
    ∃ l, convex_hull_3d (fun _ => 0) (fun _ => 0)
        [⟨0, 0, 0, 0⟩, ⟨1, 1, 0, 0⟩, ⟨2, 0, 1, 0⟩, ⟨3, 0, 0, 1⟩] 1 = .ok l ∧
      List.Perm l [(0, 1, 2), (1, 2, 3), (0, 2, 3), (0, 1, 3)] :=
  convex_hull_3d_four_points (fun _ => 0) (fun _ => 0)
    [⟨0, 0, 0, 0⟩, ⟨1, 1, 0, 0⟩, ⟨2, 0, 1, 0⟩, ⟨3, 0, 0, 1⟩] 0 (by decide)

/-- C4: every conflict list the hull builder constructs is strictly sorted by
point identifier: `get_visible_points` (an order-preserving `pack`) maps the
seed records' identifier-sorted source sequence to a sorted list, the
`process_ridge` record's list `get_visible_points (conflict_union c1 c2)` is
sorted whenever the two parent lists are, and for a sorted non-empty conflict
list `min_conflicts` is the identifier of a member that is minimal. -/
theorem conflict_lists_sorted :
    (∀ (P : List point),
      List.Pairwise (fun a b : point => a.id < b.id) P →
      ∀ (t : tri) (pid : point_id),
      List.Pairwise (fun a b : point => a.id < b.id)
        (get_visible_points P t pid
          (pack P (tabulate P.length fun i => decide (3 < i))))) ∧
    (∀ (points : List point) (t : tri) (pid : point_id) (c1 c2 : List point),
      List.Pairwise (fun a b : point => a.id < b.id) c1 →
      List.Pairwise (fun a b : point => a.id < b.id) c2 →
      List.Pairwise (fun a b : point => a.id < b.id)
        (get_visible_points points t pid (conflict_union c1 c2))) ∧
    (∀ (n : point_id) (t : triangle),
      List.Pairwise (fun a b : point => a.id < b.id) t.conflicts →
      t.conflicts ≠ [] →
      (∃ z ∈ t.conflicts, z.id = min_conflicts n t) ∧
      ∀ z ∈ t.conflicts, min_conflicts n t ≤ z.id) :=
  ⟨fun P hP t pid =>
      get_visible_points_sorted _ _ _ _ (List.Pairwise.sublist (pack_sublist P _) hP),
   fun points t pid c1 c2 h1 h2 =>
      get_visible_points_sorted _ _ _ _ (conflict_union_sorted c1 c2 h1 h2),
   min_conflicts_min⟩

theorem conflict_lists_sorted_witness :
    List.Pairwise (fun a b : point => a.id < b.id)
      (get_visible_points [point.mk 0 0 0 0, point.mk 1 1 0 0] (0, 1, 1) 0
        (pack [point.mk 0 0 0 0, point.mk 1 1 0 0] (tabulate 2 fun i => decide (3 < i)))) ∧
    List.Pairwise (fun a b : point => a.id < b.id)
      (get_visible_points [] (0, 1, 2) 0
        (conflict_union [point.mk 4 1 0 0, point.mk 6 0 1 0]
          [point.mk 5 0 0 1, point.mk 6 0 1 0])) ∧
    ((∃ z ∈ (triangle.mk (0, 1, 2) 3 [point.mk 4 1 0 0, point.mk 5 0 0 1]).conflicts,
        z.id = min_conflicts 9 (triangle.mk (0, 1, 2) 3 [point.mk 4 1 0 0, point.mk 5 0 0 1])) ∧
      ∀ z ∈ (triangle.mk (0, 1, 2) 3 [point.mk 4 1 0 0, point.mk 5 0 0 1]).conflicts,
        min_conflicts 9 (triangle.mk (0, 1, 2) 3 [point.mk 4 1 0 0, point.mk 5 0 0 1]) ≤ z.id) :=
  ⟨conflict_lists_sorted.1 _ (by decide) _ _,
   conflict_lists_sorted.2.1 [] (0, 1, 2) 0 _ _ (by decide) (by decide),
   conflict_lists_sorted.2.2 9 _ (by decide) (by decide)⟩

/-- C1 counterexample: `check_edge` passes the raw edge `e`, not the
canonical sorted `key`, to `get_value`. With an unsorted edge `(5, 4)` whose
canonical ridge `(4, 5)` was already won by a peer, the insert loses the race
but the lookup misses every slot (no slot stores `(5, 4)`), `get_value`
returns an empty optional, and `check_edge` hits the `.value()`-on-empty
failure instead of recursing on the peer record. -/
theorem ridge_lookup_raw_edge_counterexample :
    ((CHM.insert_and_set (fun _ => 0) (CHM.mkMap 0 : CHM.MapState edge tptr)
        ((4 : Int), (5 : Int)) ((0 : Nat), (default : triangle))).map fun p =>
      (p.1,
        check_edge ⟨[], 0, fun _ => 0, fun _ => 0⟩
          (process_ridge ⟨[], 0, fun _ => 0, fun _ => 0⟩ 5)
          ((5 : Int), (4 : Int)) ((1 : Nat), (default : triangle))
          ⟨p.2, CHM.mkMap 0, 2⟩,
        (CHM.insert_and_set (fun _ => 0) p.2 ((4 : Int), (5 : Int))
          ((1 : Nat), (default : triangle))).map Prod.fst)) =
    some (.Success, .error .emptyOptional, some .LostRace) := by
  rfl

/-- C1 amended: the post-race lookup of `check_edge` passes the raw edge
`e`, which coincides with the canonical key exactly when `e` is already
identifier-sorted. Under that condition, on every ridge-map state reachable
by a sequence of `insert_and_set` calls (`InsInv` — insertion is the only
mutation the builder performs on the ridge map), within capacity and with
the inserted record distinct from every stored one (records are fresh
allocations), `check_edge` either wins the race, or its `get_value` lookup
returns a non-empty optional holding a stored peer record different from
its own, on which it recurses — the `.value()` call never applies to an
empty optional. -/
theorem ridge_lookup_sorted_edge_safe (hashE : edge → Nat) (hashT : tri → Nat)
    (points : List point) (n : point_id)
    (rec : tptr → edge → tptr → HullState → Except HullErr HullState)
    (st : HullState) (ks : List edge) (e : edge) (tp : tptr)
    (hinv : CHM.InsInv hashE st.map_facets ks)
    (hsorted : e.1 < e.2)
    (hroom : ks.length + 1 < st.map_facets.m)
    (hfresh : ∀ x, x < st.map_facets.m → (CHM.slotAt st.map_facets x).value ≠ tp) :
    (∃ mf, check_edge ⟨points, n, hashE, hashT⟩ rec e tp st =
        .ok ⟨mf, st.convex_hull, st.cntr⟩) ∨
    (∃ tt mf, tt ≠ tp ∧ check_edge ⟨points, n, hashE, hashT⟩ rec e tp st =
        rec tp e tt ⟨mf, st.convex_hull, st.cntr⟩) := by
  have hkey : (if e.1 < e.2 then e else (e.2, e.1)) = e := if_pos hsorted
  by_cases he : e ∈ ks
  · obtain ⟨j, hjm, hfr, hins⟩ :=
      CHM.insert_lost_structure hashE e tp hinv hroom he
    obtain ⟨w, hwm, hwkey, hwval, hget⟩ :=
      CHM.get_value_after_lost hashE e tp hinv he j hfr hfresh
    right
    refine ⟨(CHM.slotAt st.map_facets w).value,
      CHM.writeSlot st.map_facets j e tp, hwval, ?_⟩
    unfold check_edge
    dsimp only
    rw [hkey, hins]
    dsimp only
    rw [hget]
  · obtain ⟨s2, hins, _, _⟩ := CHM.insert_step hashE e tp hinv hroom
    rw [if_neg he] at hins
    left
    refine ⟨s2, ?_⟩
    unfold check_edge
    dsimp only
    rw [hkey, hins]

theorem ridge_lookup_sorted_edge_safe_witness :
    (∃ mf, check_edge ⟨[], 0, fun _ => 0, fun _ => 0⟩ (fun _ _ _ st => .ok st)
        ((4 : Int), (5 : Int)) ((1 : Nat), (default : triangle))
        ⟨CHM.mkMap 0, CHM.mkMap 0, 2⟩ = .ok ⟨mf, CHM.mkMap 0, 2⟩) ∨
    (∃ tt mf, tt ≠ ((1 : Nat), (default : triangle)) ∧
      check_edge ⟨[], 0, fun _ => 0, fun _ => 0⟩ (fun _ _ _ st => .ok st)
        ((4 : Int), (5 : Int)) ((1 : Nat), (default : triangle))
        ⟨CHM.mkMap 0, CHM.mkMap 0, 2⟩ = .ok ⟨mf, CHM.mkMap 0, 2⟩) :=
  ridge_lookup_sorted_edge_safe (fun _ => 0) (fun _ => 0) [] 0
    (fun _ _ _ st => .ok st) ⟨CHM.mkMap 0, CHM.mkMap 0, 2⟩ [] ((4 : Int), (5 : Int))
    ((1 : Nat), default) (CHM.insInv_init (fun _ => 0) 0) (by decide) (by decide)
    (fun x hx => by rw [CHM.mkMap_slotAt]; decide)

end HullClaims
